import Mathlib

/-!
Verification of the data-access layer of the tweet-ingestion repository
(`src/lib/DataAccess/BLL.py`, `DAL.py`, `models.py`).

The Python code is shallowly embedded: strings are lists of characters
(`Str`), `datetime` values are integers, tables are lists of rows, and the
relational store is the `DB` record.  Failure of the backing store is
injected through explicit fault parameters; Python's `try/except/finally`
control flow (including the well-known behaviour that a `return` inside
`finally` overrides the pending return value or exception, and that
referencing a never-assigned local raises `UnboundLocalError`) is encoded
faithfully in each translated operation.
-/

namespace TweetStore

/-- Python `str`, modelled as a list of characters (`len`/slicing become
`List.length`/`List.take`). -/
abbrev Str := List Char

/-- Exceptions that the modelled code can raise past an operation's
boundary. -/
inductive PyErr where
  | dbError
  | unboundLocal
  | attrError
deriving DecidableEq, Repr

deriving instance DecidableEq for Except

/-- Python `s[:n]` applied under a `len(s) > n` guard, as written in
`TweetBLL.upsert` (BLL.py 742-754) and the topic loop (BLL.py 793-794). -/
def pyTrunc (n : Nat) (s : Str) : Str :=
  if s.length > n then s.take n else s

/-- One character of Python's regex class `\w` (`[A-Za-z0-9_]`; the texts
the claims exercise are ASCII). -/
def wordChar (c : Char) : Bool :=
  c.isAlphanum || c == '_'

/-- The scanner behind `re.findall('#(\w+)', content)` (BLL.py 774),
left to right and non-overlapping: outside a match (`acc = none`) a `#`
opens a candidate match; inside one (`acc = some w`, accumulated word
characters in reverse) a word character accumulates, and any other
character closes the candidate — emitting it when at least one word
character was accumulated — and is itself re-examined as a possible
`#`. -/
def extractGo : Str → Option Str → List Str
  | [], none => []
  | [], some w => if w.isEmpty then [] else [w.reverse]
  | c :: rest, none =>
    if c == '#' then extractGo rest (some []) else extractGo rest none
  | c :: rest, some w =>
    if wordChar c then extractGo rest (some (c :: w))
    else
      (if w.isEmpty then [] else [w.reverse])
        ++ (if c == '#' then extractGo rest (some []) else extractGo rest none)

/-- `re.findall('#(\w+)', content)` (BLL.py 774): each match is a `#`
followed by the maximal nonempty run of word characters. -/
def extractHashtags (l : Str) : List Str :=
  extractGo l none

/-- `hashtag.replace('#', '')` (DAL.py 235). -/
def stripHash (t : Str) : Str :=
  t.filter (fun c => !(c == '#'))

/-- Python set insertion, modelled as first-occurrence-order
deduplication.  CPython's set iteration order is unspecified, so this
fixed order is only ever relied on where the proven property is a set
property (independent of the order); any conclusion whose truth could
depend on the order is instead proven for every admissible iteration
order (`setIterOk`). -/
def pySetAdd {α : Type} [DecidableEq α] (l : List α) (x : α) : List α :=
  if x ∈ l then l else l ++ [x]

/-- `set(xs)` iterated in first-occurrence order. -/
def dedupFirst {α : Type} [DecidableEq α] (l : List α) : List α :=
  l.foldl pySetAdd []

theorem mem_pySetAdd {α : Type} [DecidableEq α] (l : List α) (x a : α) :
    a ∈ pySetAdd l x ↔ a ∈ l ∨ a = x := by
  unfold pySetAdd
  split
  · rename_i h
    constructor
    · exact fun hm => Or.inl hm
    · rintro (hm | rfl)
      · exact hm
      · exact h
  · simp [List.mem_append]

theorem nodup_pySetAdd {α : Type} [DecidableEq α] (l : List α) (x : α)
    (h : l.Nodup) : (pySetAdd l x).Nodup := by
  unfold pySetAdd
  split
  · exact h
  · rename_i hx
    simpa [List.nodup_append] using ⟨h, hx⟩

theorem foldl_pySetAdd_mem {α : Type} [DecidableEq α] (l : List α) :
    ∀ acc : List α, ∀ a : α, a ∈ l.foldl pySetAdd acc ↔ a ∈ acc ∨ a ∈ l := by
  induction l with
  | nil => intro acc a; simp
  | cons x xs ih =>
    intro acc a
    simp only [List.foldl_cons, ih, mem_pySetAdd, List.mem_cons]
    tauto

theorem mem_dedupFirst {α : Type} [DecidableEq α] (l : List α) (a : α) :
    a ∈ dedupFirst l ↔ a ∈ l := by
  unfold dedupFirst
  simp [foldl_pySetAdd_mem]

theorem nodup_foldl_pySetAdd {α : Type} [DecidableEq α] (l : List α) :
    ∀ acc : List α, acc.Nodup → (l.foldl pySetAdd acc).Nodup := by
  induction l with
  | nil => intro acc h; simpa using h
  | cons x xs ih =>
    intro acc h
    exact ih _ (nodup_pySetAdd _ _ h)

theorem nodup_dedupFirst {α : Type} [DecidableEq α] (l : List α) :
    (dedupFirst l).Nodup :=
  nodup_foldl_pySetAdd l [] List.nodup_nil

theorem wordChar_extractGo :
    ∀ (l : Str) (acc : Option Str),
      (∀ w, acc = some w → ∀ c ∈ w, wordChar c = true) →
      ∀ t ∈ extractGo l acc, ∀ c ∈ t, wordChar c = true := by
  intro l
  induction l with
  | nil =>
    intro acc hacc t ht c hc
    match acc with
    | none => simp [extractGo] at ht
    | some w =>
      rw [extractGo] at ht
      split at ht
      · simp at ht
      · rw [List.mem_singleton] at ht
        subst ht
        exact hacc w rfl c (List.mem_reverse.mp hc)
  | cons x rest ih =>
    intro acc hacc t ht c hc
    match acc with
    | none =>
      rw [extractGo] at ht
      split at ht
      · exact ih (some []) (by simp) t ht c hc
      · exact ih none (by simp) t ht c hc
    | some w =>
      rw [extractGo] at ht
      split at ht
      · rename_i hx
        refine ih (some (x :: w)) ?_ t ht c hc
        intro w' hw' d hd
        injection hw' with hw'
        subst hw'
        rcases List.mem_cons.mp hd with rfl | hd'
        · exact hx
        · exact hacc w rfl d hd'
      · rcases List.mem_append.mp ht with hemit | hrest
        · split at hemit
          · simp at hemit
          · rw [List.mem_singleton] at hemit
            subst hemit
            exact hacc w rfl c (List.mem_reverse.mp hc)
        · split at hrest
          · exact ih (some []) (by simp) t hrest c hc
          · exact ih none (by simp) t hrest c hc

theorem wordChar_extractHashtags (l : Str) :
    ∀ t ∈ extractHashtags l, ∀ c ∈ t, wordChar c = true :=
  wordChar_extractGo l none (by simp)

/-! ## Data model (models.py) -/

/-- `twitter_user` row (models.py 69-76); `last_updated` is a datetime,
modelled as `Int`. -/
structure TwitterUserRow where
  id : Int
  username : Str
  display_name : Str
  last_updated : Int
deriving DecidableEq, Repr

/-- `tweet` row (models.py 78-96).  `use_count`-style defaults and the
view-only relationship attributes are not columns written by the modelled
operations and are omitted. -/
structure TweetRow where
  id : Int
  user_id : Int
  content : Str
  language : Option Str
  created_at : Int
  sentiment_score : Option Int
  like_count : Int
  retweet_count : Int
  reply_count : Int
deriving DecidableEq, Repr

/-- `tweet_hashtag` link row (models.py 98-103). -/
structure THLink where
  tweet_id : Int
  hashtag_id : Int
deriving DecidableEq, Repr

/-- `tweet_topic` link row (models.py 105-111). -/
structure TTLink where
  tweet_id : Int
  topic_id : Int
  sort_order : Int
deriving DecidableEq, Repr

/-- The relational store.  `hashtag` and `topic` rows are `(id, text)`
pairs (their `use_count` column, server default 0, is never written by the
operations under audit).  `nextHashtagId`/`nextTopicId` model the
auto-increment counters. -/
structure DB where
  twitterUsers : List TwitterUserRow
  tweets : List TweetRow
  hashtags : List (Int × Str)
  topics : List (Int × Str)
  tweetHashtags : List THLink
  tweetTopics : List TTLink
  nextHashtagId : Int
  nextTopicId : Int
deriving DecidableEq, Repr

/-! ## Tag registry (HashtagBLL.insert_if_not_exists, BLL.py 449-471;
TopicBLL.insert_if_not_exists, BLL.py 482-504)

Both functions are the same code up to the entity and the `#`-stripping
performed inside `HashtagDAL.insert` (DAL.py 235); they are embedded once,
parameterised by `doStrip`.  `Reg` carries the table (`rows`, with the
auto-increment counter `nextId`) plus session bookkeeping:
`DatabaseConnection.create_session` hands out session number
`nextSession`, and `closed` records each `session.close()` call, so that
resource-release claims are statements about `closed`. -/

/-- Registry state: tag table plus session bookkeeping. -/
structure Reg where
  rows : List (Int × Str)
  nextId : Int
  nextSession : Nat
  closed : List Nat
deriving DecidableEq, Repr

/-- `session.close()` on session `n`. -/
def closeS (n : Nat) (s : Reg) : Reg :=
  { s with closed := s.closed ++ [n] }

/-- `SELECT ... WHERE text = t` (`find_by_hashtag` DAL.py 216-219 /
`find_by_title` DAL.py 303-317): id of the first row whose text is `t`. -/
def findText : List (Int × Str) → Str → Option Int
  | [], _ => none
  | r :: rs, t => if r.2 = t then some r.1 else findText rs t

/-- Texts stored in a tag table. -/
def regTexts (rows : List (Int × Str)) : List Str :=
  rows.map Prod.snd

/-- The concurrent writer's commit in the window between our failed
lookup and our insert: its own `insert_if_not_exists` only creates the row
when the text is still absent. -/
def regAfterInterf (interf : Option Str) (s : Reg) : Reg :=
  match interf with
  | none => s
  | some u =>
    if u ∈ regTexts s.rows then s
    else { s with rows := s.rows ++ [(s.nextId, u)], nextId := s.nextId + 1 }

/-- `insert_if_not_exists` (BLL.py 449-471 / 482-504).

`doStrip` selects the Hashtag variant (whose DAL `insert` stores
`hashtag.replace('#','')`).  `interf` models a concurrent writer that
commits a row in the window between our failed lookup and our insert (the
only window the code's retry exists for); `none` is an interference-free
run.  On a duplicate-key failure the `except` block opens a *new* session
(rebinding the `session` variable, so the first session is never closed),
re-queries by the original text, and the `finally` closes only the new
session.  If that re-query finds nothing, `result.id` raises
`AttributeError`. -/
def insertIfNotExists (doStrip : Bool) (interf : Option Str) (s0 : Reg)
    (t : Str) : Except PyErr Int × Reg :=
  -- session = self._db.create_session(): session number s0.nextSession
  let s := { s0 with nextSession := s0.nextSession + 1 }
  match findText s0.rows t with
  | some i =>
    -- found: close the session and return the id, no write
    (.ok i, closeS s0.nextSession s)
  | none =>
    let s1 := regAfterInterf interf s
    let v := if doStrip then stripHash t else t
    if v ∈ regTexts s1.rows then
      -- repo.insert(t) hits the unique constraint: nothing is committed;
      -- the except block opens a new session, REBINDING `session` (the
      -- first session is never closed), and re-queries by the unmodified
      -- argument text; `finally` closes only the new session
      match findText s1.rows t with
      | some i =>
        (.ok i, closeS s1.nextSession { s1 with nextSession := s1.nextSession + 1 })
      | none =>
        (.error .attrError,
         closeS s1.nextSession { s1 with nextSession := s1.nextSession + 1 })
    else
      -- insert succeeds: flush assigns the auto-increment id, commit,
      -- close the (single) session
      (.ok s1.nextId,
       closeS s0.nextSession
         { s1 with rows := s1.rows ++ [(s1.nextId, v)], nextId := s1.nextId + 1 })

/-- The uniqueness/auto-increment invariant the schema guarantees for the
`hashtag` and `topic` tables: ids are unique, texts are unique
(models.py 55-57, 64-66), and every id is below the auto-increment
counter. -/
def RegInv (rows : List (Int × Str)) (nid : Int) : Prop :=
  (rows.map Prod.fst).Nodup ∧ (rows.map Prod.snd).Nodup ∧ ∀ r ∈ rows, r.1 < nid

instance (rows : List (Int × Str)) (nid : Int) : Decidable (RegInv rows nid) := by
  unfold RegInv; infer_instance

/-- Number of rows carrying text `t`. -/
def countText (rows : List (Int × Str)) (t : Str) : Nat :=
  (rows.filter (fun r => r.2 = t)).length

theorem findText_eq_none {rows : List (Int × Str)} {t : Str} :
    findText rows t = none ↔ ∀ r ∈ rows, r.2 ≠ t := by
  induction rows with
  | nil => simp [findText]
  | cons r rs ih =>
    by_cases h : r.2 = t
    · simp [findText, h]
    · simp [findText, h, ih]

theorem findText_mem {rows : List (Int × Str)} {t : Str} {i : Int}
    (h : findText rows t = some i) : (i, t) ∈ rows := by
  induction rows with
  | nil => simp [findText] at h
  | cons r rs ih =>
    by_cases hr : r.2 = t
    · simp only [findText, hr, if_true, Option.some.injEq] at h
      subst h
      have : r = (r.1, t) := by
        cases r; simp_all
      simp [← this]
    · simp only [findText, hr, if_false] at h
      exact List.mem_cons_of_mem _ (ih h)

theorem findText_append_some {rows ext : List (Int × Str)} {t : Str} {i : Int}
    (h : findText rows t = some i) : findText (rows ++ ext) t = some i := by
  induction rows with
  | nil => simp [findText] at h
  | cons r rs ih =>
    by_cases hr : r.2 = t
    · simp only [findText, hr, if_true, Option.some.injEq] at h
      simp [findText, hr, h]
    · simp only [findText, hr, if_false] at h
      simp [findText, hr, ih h]

theorem findText_append_none {rows : List (Int × Str)} {t : Str} {j : Int}
    (h : findText rows t = none) :
    findText (rows ++ [(j, t)]) t = some j := by
  induction rows with
  | nil => simp [findText]
  | cons r rs ih =>
    rw [findText_eq_none] at h
    have hr : r.2 ≠ t := h r (by simp)
    have : findText rs t = none := by
      rw [findText_eq_none]
      intro x hx
      exact h x (by simp [hx])
    simp [findText, hr, ih this]

theorem mem_regTexts {rows : List (Int × Str)} {t : Str} :
    t ∈ regTexts rows ↔ ∃ i, (i, t) ∈ rows := by
  unfold regTexts
  constructor
  · intro h
    rcases List.mem_map.mp h with ⟨r, hr, hrt⟩
    exact ⟨r.1, by cases r; simp_all⟩
  · rintro ⟨i, hi⟩
    exact List.mem_map.mpr ⟨(i, t), hi, rfl⟩

theorem findText_none_iff_not_memText {rows : List (Int × Str)} {t : Str} :
    findText rows t = none ↔ t ∉ regTexts rows := by
  rw [findText_eq_none, mem_regTexts]
  constructor
  · rintro h ⟨i, hi⟩
    exact h (i, t) hi rfl
  · intro h r hr hrt
    exact h ⟨r.1, by cases r; simp_all⟩

/-- With unique ids, two lookups returning the same id looked up the same
text. -/
theorem findText_inj {rows : List (Int × Str)} {t₁ t₂ : Str} {i : Int}
    (hnd : (rows.map Prod.fst).Nodup)
    (h₁ : findText rows t₁ = some i) (h₂ : findText rows t₂ = some i) :
    t₁ = t₂ := by
  have m₁ : (i, t₁) ∈ rows := findText_mem h₁
  have m₂ : (i, t₂) ∈ rows := findText_mem h₂
  have := List.inj_on_of_nodup_map hnd m₁ m₂ (by rfl)
  simpa using congrArg Prod.snd this

theorem countText_eq_zero {rows : List (Int × Str)} {t : Str}
    (h : findText rows t = none) : countText rows t = 0 := by
  rw [findText_eq_none] at h
  unfold countText
  rw [List.length_eq_zero, List.filter_eq_nil_iff]
  intro r hr
  simpa using h r hr

theorem countText_le_one {rows : List (Int × Str)} {t : Str}
    (hnd : (rows.map Prod.snd).Nodup) : countText rows t ≤ 1 := by
  induction rows with
  | nil => simp [countText]
  | cons r rs ih =>
    simp only [List.map_cons, List.nodup_cons] at hnd
    by_cases h : r.2 = t
    · have : countText rs t = 0 := by
        unfold countText
        rw [List.length_eq_zero, List.filter_eq_nil_iff]
        intro x hx hxt
        exact hnd.1 (h ▸ (by simpa using hxt) ▸ List.mem_map_of_mem Prod.snd hx)
      unfold countText at this ⊢
      simp [h, List.filter_cons, this]
    · unfold countText at ih ⊢
      simpa [List.filter_cons, h] using ih hnd.2

theorem countText_pos {rows : List (Int × Str)} {t : Str} {i : Int}
    (h : findText rows t = some i) : 1 ≤ countText rows t := by
  have hm : (i, t) ∈ rows := findText_mem h
  unfold countText
  have : (i, t) ∈ rows.filter (fun r => r.2 = t) :=
    List.mem_filter.mpr ⟨hm, by simp⟩
  exact List.length_pos.mpr (List.ne_nil_of_mem this)

theorem countText_append {rows ext : List (Int × Str)} {t : Str} :
    countText (rows ++ ext) t = countText rows t + countText ext t := by
  unfold countText
  simp [List.filter_append]

/-- `strip`-safety: for the Hashtag variant the argument must survive the
DAL's `#`-stripping unchanged (texts produced by the `#(\w+)` regex always
do); the Topic variant does not strip. -/
def stripSafe (doStrip : Bool) (t : Str) : Prop :=
  doStrip = true → stripHash t = t

instance (doStrip : Bool) (t : Str) : Decidable (stripSafe doStrip t) := by
  unfold stripSafe; infer_instance

theorem stripSafe_of_wordChars {t : Str}
    (h : ∀ c ∈ t, wordChar c = true) : ∀ b, stripSafe b t := by
  intro b _
  unfold stripHash
  rw [List.filter_eq_self]
  intro c hc
  have hw := h c hc
  have hcne : c ≠ '#' := by
    intro hcc
    rw [hcc] at hw
    have : wordChar '#' = false := by decide
    rw [this] at hw
    cases hw
  simp [hcne]

/-- Behaviour of one interference-free `insert_if_not_exists` call: it
never raises, and either the text was found (no write) or a fresh row was
appended with the auto-increment id. -/
theorem gc_spec (doStrip : Bool) (s : Reg) (t : Str)
    (hs : stripSafe doStrip t) :
    ∃ i s', insertIfNotExists doStrip none s t = (.ok i, s') ∧
      s'.nextId = (if findText s.rows t = none then s.nextId + 1 else s.nextId) ∧
      ((findText s.rows t = some i ∧ s'.rows = s.rows) ∨
       (findText s.rows t = none ∧ i = s.nextId ∧
        s'.rows = s.rows ++ [(s.nextId, t)])) := by
  cases hf : findText s.rows t with
  | some i =>
    refine ⟨i, closeS s.nextSession { s with nextSession := s.nextSession + 1 },
      ?_, by simp [closeS, hf], Or.inl ⟨rfl, rfl⟩⟩
    simp [insertIfNotExists, hf]
  | none =>
    have hv : (if doStrip then stripHash t else t) = t := by
      cases doStrip with
      | true => simpa using hs rfl
      | false => rfl
    have hnm : t ∉ regTexts s.rows := findText_none_iff_not_memText.mp hf
    refine ⟨s.nextId,
      closeS s.nextSession
        { s with rows := s.rows ++ [(s.nextId, t)], nextId := s.nextId + 1,
                 nextSession := s.nextSession + 1 },
      ?_, by simp [closeS, hf], Or.inr ⟨rfl, rfl, by simp [closeS]⟩⟩
    simp only [insertIfNotExists, regAfterInterf, hf]
    rw [hv]
    simp [hnm, closeS]

/-- `RegInv` is preserved by an interference-free call. -/
theorem gc_inv {doStrip : Bool} {s : Reg} {t : Str} {i : Int} {s' : Reg}
    (hInv : RegInv s.rows s.nextId) (hs : stripSafe doStrip t)
    (h : insertIfNotExists doStrip none s t = (.ok i, s')) :
    RegInv s'.rows s'.nextId := by
  obtain ⟨i', s'', heq, hnid, hcase⟩ := gc_spec doStrip s t hs
  rw [h] at heq
  injection heq with h1 h2
  injection h1 with h1
  subst h1 h2
  obtain ⟨hid, htx, hb⟩ := hInv
  rcases hcase with ⟨hf, hrows⟩ | ⟨hf, hi, hrows⟩
  · have hnid' : s'.nextId = s.nextId := by rw [hnid]; simp [hf]
    rw [hrows, hnid']
    exact ⟨hid, htx, hb⟩
  · have hnid' : s'.nextId = s.nextId + 1 := by rw [hnid]; simp [hf]
    rw [hrows, hnid']
    refine ⟨?_, ?_, ?_⟩
    · rw [List.map_append, List.nodup_append]
      refine ⟨hid, by simp, ?_⟩
      intro x hx
      rcases List.mem_map.mp hx with ⟨r, hr, rfl⟩
      have := hb r hr
      simp only [List.map_cons, List.map_nil, List.mem_singleton]
      intro hx'
      omega
    · rw [List.map_append, List.nodup_append]
      refine ⟨htx, by simp, ?_⟩
      intro x hx
      rcases List.mem_map.mp hx with ⟨r, hr, rfl⟩
      simp only [List.map_cons, List.map_nil, List.mem_singleton]
      intro hx'
      exact (findText_eq_none.mp hf) r hr hx'
    · intro r hr
      rcases List.mem_append.mp hr with h1 | h1
      · have := hb r h1; omega
      · simp only [List.mem_singleton] at h1
        subst h1
        simp

/-- The `for e in ...: insert_if_not_exists(e)` loop of `TweetBLL.upsert`
(BLL.py 778-780 and 792-796): each call commits on its own session;
the table rows and auto-increment counter thread through. -/
def getOrCreateFold (doStrip : Bool) :
    List Str → List (Int × Str) → Int → Except PyErr (List Int × List (Int × Str) × Int)
  | [], rows, nid => .ok ([], rows, nid)
  | t :: ts, rows, nid =>
    match insertIfNotExists doStrip none ⟨rows, nid, 0, []⟩ t with
    | (.ok i, s') =>
      match getOrCreateFold doStrip ts s'.rows s'.nextId with
      | .ok (is, rows', nid') => .ok (i :: is, rows', nid')
      | .error e => .error e
    | (.error e, _) => .error e

/-- Membership form of the `Forall₂` lookup fact. -/
theorem forall2_mem_right {rows' : List (Int × Str)} :
    ∀ {ts : List Str} {is : List Int},
      List.Forall₂ (fun t i => findText rows' t = some i) ts is →
      ∀ i ∈ is, ∃ t ∈ ts, findText rows' t = some i := by
  intro ts is h
  induction h with
  | nil => simp
  | cons h₁ h₂ ih =>
    intro i hi
    rcases List.mem_cons.mp hi with rfl | hi'
    · exact ⟨_, by simp, h₁⟩
    · obtain ⟨t, ht, hft⟩ := ih i hi'
      exact ⟨t, by simp [ht], hft⟩

/-- Specification of the get-or-create loop: under the schema invariant it
never raises, only appends rows, preserves the invariant, pairs every
input text with an id that looks that text up in the final table, and maps
distinct texts to distinct ids. -/
theorem fold_spec (doStrip : Bool) :
    ∀ (ts : List Str) (rows : List (Int × Str)) (nid : Int),
      RegInv rows nid → (∀ t ∈ ts, stripSafe doStrip t) →
      ∃ is rows' nid',
        getOrCreateFold doStrip ts rows nid = .ok (is, rows', nid') ∧
        (∃ ext, rows' = rows ++ ext) ∧
        RegInv rows' nid' ∧
        List.Forall₂ (fun t i => findText rows' t = some i) ts is ∧
        (ts.Nodup → is.Nodup) := by
  intro ts
  induction ts with
  | nil =>
    intro rows nid hInv _
    exact ⟨[], rows, nid, rfl, ⟨[], by simp⟩, hInv, List.Forall₂.nil, by simp⟩
  | cons t ts ih =>
    intro rows nid hInv hss
    obtain ⟨i, s', heq, hnid, hcase⟩ :=
      gc_spec doStrip ⟨rows, nid, 0, []⟩ t (hss t (by simp))
    have hInv' : RegInv s'.rows s'.nextId := gc_inv hInv (hss t (by simp)) heq
    obtain ⟨is, rows', nid', hfold, ⟨ext, hext⟩, hInv'', hfa, hnd⟩ :=
      ih s'.rows s'.nextId hInv' (fun u hu => hss u (by simp [hu]))
    have hfind : findText s'.rows t = some i := by
      rcases hcase with ⟨hf, hrows⟩ | ⟨hf, rfl, hrows⟩
      · rw [hrows]; exact hf
      · rw [hrows]; exact findText_append_none hf
    have hfind' : findText rows' t = some i := by
      rw [hext]; exact findText_append_some hfind
    refine ⟨i :: is, rows', nid', ?_, ?_, hInv'', List.Forall₂.cons hfind' hfa, ?_⟩
    · simp [getOrCreateFold, heq, hfold]
    · rcases hcase with ⟨_, hrows⟩ | ⟨_, _, hrows⟩
      · exact ⟨ext, by rw [hext, hrows]⟩
      · exact ⟨(nid, t) :: ext, by rw [hext, hrows]; simp⟩
    · intro hndts
      rw [List.nodup_cons] at hndts ⊢
      refine ⟨?_, hnd hndts.2⟩
      intro hmem
      obtain ⟨u, hu, hfu⟩ := forall2_mem_right hfa i hmem
      have : t = u := findText_inj hInv''.1 hfind' hfu
      exact hndts.1 (this ▸ hu)

/-! ## Row upserts (DAL.py) -/

/-- `TwitterUserDAL.upsert` (DAL.py 343-375): `INSERT ... ON DUPLICATE KEY
UPDATE` with `CASE` expressions that overwrite `username`, `display_name`
and `last_updated` only when the stored `last_updated` is strictly older
than the incoming one.  The duplicate key is the primary key `id` or the
unique `username` (models.py 73-74); when the id matches an existing row,
that row is the one updated.  The returned rowcount follows MySQL: 1 for
an insert, 2 for a duplicate-key update (its exact value is not relied on
by any claim). -/
def twitterUserUpsertRow (db : DB) (id : Int) (un dn : Str) (lu : Int) :
    Int × DB :=
  if db.twitterUsers.any (fun r => r.id == id) then
    (2, { db with twitterUsers := db.twitterUsers.map fun r =>
            if r.id == id then
              (if r.last_updated < lu then
                { r with username := un, display_name := dn, last_updated := lu }
              else r)
            else r })
  else if db.twitterUsers.any (fun r => r.username == un) then
    (2, { db with twitterUsers := db.twitterUsers.map fun r =>
            if r.username == un then
              (if r.last_updated < lu then
                { r with username := un, display_name := dn, last_updated := lu }
              else r)
            else r })
  else
    (1, { db with twitterUsers := db.twitterUsers ++ [⟨id, un, dn, lu⟩] })

/-- `TweetDAL.upsert` (DAL.py 455-500): unconditional overwrite on
duplicate id; note that `user_id` is absent from the
`on_duplicate_key_update` list, so an update keeps the stored author. -/
def tweetRowUpsert (db : DB) (tid uid : Int) (content : Str)
    (language : Option Str) (ca : Int) (ss : Option Int)
    (lc rc pc : Int) : Int × DB :=
  if db.tweets.any (fun r => r.id == tid) then
    (2, { db with tweets := db.tweets.map fun r =>
            if r.id == tid then
              { r with content := content, language := language,
                       created_at := ca, sentiment_score := ss,
                       like_count := lc, retweet_count := rc,
                       reply_count := pc }
            else r })
  else
    (1, { db with tweets := db.tweets ++ [⟨tid, uid, content, language, ca, ss, lc, rc, pc⟩] })

/-- `find_by_id` on the `twitter_user` table. -/
def findUserById (db : DB) (id : Int) : Option TwitterUserRow :=
  db.twitterUsers.find? (fun r => r.id == id)

/-- `find_by_id` on the `tweet` table. -/
def findTweetById (db : DB) (id : Int) : Option TweetRow :=
  db.tweets.find? (fun r => r.id == id)

/-! ## Link replacement (TweetHashtagBLL.insert, BLL.py 832-850;
TweetTopicBLL.insert, BLL.py 856-874)

One session: `delete_by_tweet_id`, then `add_all` of the new link rows,
then commit.  If the commit violates a constraint (the tweet row does not
exist, a tag id does not exist, or the new rows collide on the composite
primary key) the bare `except` swallows the error and the session is
closed uncommitted, so the table — including the delete — is unchanged. -/

def tweetHashtagReplace (db : DB) (tid : Int) (ids : List Int) : DB :=
  if (ids = [] ∨ tid ∈ db.tweets.map TweetRow.id)
      ∧ (∀ i ∈ ids, i ∈ db.hashtags.map Prod.fst) ∧ ids.Nodup then
    { db with tweetHashtags :=
        db.tweetHashtags.filter (fun l => !(l.tweet_id == tid))
          ++ ids.map (fun i => ⟨tid, i⟩) }
  else db

/-- As `tweetHashtagReplace`, but `enumerate` assigns the zero-based
position as `sort_order` (BLL.py 864-865). -/
def tweetTopicReplace (db : DB) (tid : Int) (ids : List Int) : DB :=
  if (ids = [] ∨ tid ∈ db.tweets.map TweetRow.id)
      ∧ (∀ i ∈ ids, i ∈ db.topics.map Prod.fst) ∧ ids.Nodup then
    { db with tweetTopics :=
        db.tweetTopics.filter (fun l => !(l.tweet_id == tid))
          ++ ids.enum.map (fun p => ⟨tid, p.2, (p.1 : Int)⟩) }
  else db

/-! ## The ingestion pipeline (TweetBLL.upsert, BLL.py 730-802) -/

/-- Where (if anywhere) the backing store raises inside the `try` block of
`TweetBLL.upsert`. -/
inductive Fault where
  | nofault
  | atUserUpsert
  | atTweetUpsert
  | atCommit
deriving DecidableEq, Repr

/-- Arguments of `TweetBLL.upsert` (BLL.py 704-706). -/
structure UpsertArgs where
  tweet_id : Int
  twitter_user_id : Int
  username : Str
  display_name : Str
  content : Str
  language : Option Str
  created_at : Int
  sentiment_score : Option Int
  like_count : Int
  retweet_count : Int
  reply_count : Int
  topics : Option (List Str)
deriving DecidableEq, Repr

/-- The language normalisation of BLL.py 753-754 (`None` passes through;
longer than 5 is cut to 5). -/
def langNorm : Option Str → Option Str
  | some l => some (pyTrunc 5 l)
  | none => none

/-- The `try` block (BLL.py 731-769): author upsert, tweet upsert, commit,
all on one session.  On any fault the `except` block rolls the transaction
back (no table change survives) and sets `affected_row_count = 0`. -/
def upsertPhase1 (db : DB) (fault : Fault) (a : UpsertArgs) (content : Str)
    (language : Option Str) : Int × DB :=
  match fault with
  | .nofault =>
    let du := (twitterUserUpsertRow db a.twitter_user_id a.username
                a.display_name a.created_at).2
    tweetRowUpsert du a.tweet_id a.twitter_user_id content language
      a.created_at a.sentiment_score a.like_count a.retweet_count a.reply_count
  | _ => (0, db)

/-- The hashtag part of the `finally` block (BLL.py 773-784): extract the
tags from the (already truncated) `content` local, get-or-create each on
its own session, then replace the tweet's hashtag links. -/
def hashtagPhase (db : DB) (tid : Int) (content : Str) : Except PyErr DB :=
  match getOrCreateFold true (dedupFirst (extractHashtags content))
      db.hashtags db.nextHashtagId with
  | .error e => .error e
  | .ok (ids, rows, nid) =>
    .ok (tweetHashtagReplace { db with hashtags := rows, nextHashtagId := nid }
          tid ids)

/-- An admissible model of iterating a CPython `set` built from the
elements of `l`: the iteration visits exactly the distinct elements of
`l`, each once, in *some* order.  CPython leaves that order unspecified
(for `int` sets it follows hash slots, not insertion), so every statement
whose truth could depend on it is proven for every `setIter` satisfying
this predicate. -/
def setIterOk (setIter : List Int → List Int) : Prop :=
  ∀ l : List Int, (setIter l).Nodup ∧ ∀ i : Int, i ∈ setIter l ↔ i ∈ l

/-- The topic part of the `finally` block (BLL.py 786-800), parameterised
by the iteration order of the Python `set` `topic_ids`: only when the
caller passed a non-empty topic list; each title is truncated to the
column limit (100, models.py 65), get-or-created, and the resulting ids
are collected in the `set`, whose iteration order `setIter` feeds
`enumerate` in `TweetTopicBLL.insert`. -/
def topicPhaseWith (setIter : List Int → List Int) (db : DB) (tid : Int)
    (topics : Option (List Str)) : Except PyErr DB :=
  match topics with
  | none => .ok db
  | some ts =>
    if ts.isEmpty then .ok db
    else
      match getOrCreateFold false (ts.map (pyTrunc 100)) db.topics db.nextTopicId with
      | .error e => .error e
      | .ok (ids, rows, nid) =>
        .ok (tweetTopicReplace { db with topics := rows, nextTopicId := nid }
              tid (setIter ids))

/-- `TweetBLL.upsert` (BLL.py 730-802), parameterised by the topic-id
set's iteration order.  The hashtag and topic steps and the
`return affected_row_count` sit in the `finally` block, so they run on
every path, fault or not; errors raised there propagate.  (The hashtag
step also iterates a Python `set` — of extracted tag texts — in an
unspecified order; it is fixed to first-occurrence order here because
every property proven about it is a set property, independent of the
order.) -/
def tweetBLLUpsertWith (setIter : List Int → List Int) (db : DB)
    (fault : Fault) (a : UpsertArgs) : Except PyErr (Int × DB) :=
  -- BLL.py 742-754: truncate text to 280 and language to 5
  let content := pyTrunc 280 a.content
  let language := langNorm a.language
  let p1 := upsertPhase1 db fault a content language
  match hashtagPhase p1.2 a.tweet_id content with
  | .error e => .error e
  | .ok db3 =>
    match topicPhaseWith setIter db3 a.tweet_id a.topics with
    | .error e => .error e
    | .ok db4 => .ok (p1.1, db4)

/-- `TweetBLL.upsert` under one admissible set-iteration order
(first-occurrence).  Used by the claims whose conclusions are independent
of that order; order-sensitive conclusions are stated about
`tweetBLLUpsertWith` for every admissible order instead. -/
def tweetBLLUpsert : DB → Fault → UpsertArgs → Except PyErr (Int × DB) :=
  tweetBLLUpsertWith dedupFirst

/-- The schema invariant for the two tag tables. -/
def DBInv (db : DB) : Prop :=
  RegInv db.hashtags db.nextHashtagId ∧ RegInv db.topics db.nextTopicId

instance (db : DB) : Decidable (DBInv db) := by
  unfold DBInv; infer_instance

/-! ## Support lemmas for the pipeline -/

theorem find?_map_ite {α : Type} (p : α → Bool) (g : α → α)
    (hg : ∀ a, p a = true → p (g a) = true) :
    ∀ l : List α,
      (l.map fun a => if p a then g a else a).find? p = (l.find? p).map g := by
  intro l
  induction l with
  | nil => simp
  | cons x xs ih =>
    by_cases hx : p x = true
    · simp [List.find?_cons, hx, hg x hx]
    · simp only [List.map_cons]
      rw [if_neg hx, List.find?_cons, List.find?_cons]
      simp only [hx]
      exact ih

theorem find?_append_of_none {α : Type} {p : α → Bool} {l l' : List α}
    (h : l.find? p = none) : (l ++ l').find? p = l'.find? p := by
  induction l with
  | nil => simp
  | cons x xs ih =>
    by_cases hx : p x
    · rw [List.find?_cons_of_pos _ hx] at h
      cases h
    · rw [List.find?_cons_of_neg _ hx] at h
      rw [List.cons_append, List.find?_cons_of_neg _ hx]
      exact ih h

/-- `forall2_mem_right`'s mirror. -/
theorem forall2_mem_left {rows' : List (Int × Str)} :
    ∀ {ts : List Str} {is : List Int},
      List.Forall₂ (fun t i => findText rows' t = some i) ts is →
      ∀ t ∈ ts, ∃ i ∈ is, findText rows' t = some i := by
  intro ts is h
  induction h with
  | nil => simp
  | cons h₁ h₂ ih =>
    intro t ht
    rcases List.mem_cons.mp ht with rfl | ht'
    · exact ⟨_, by simp, h₁⟩
    · obtain ⟨i, hi, hfi⟩ := ih t ht'
      exact ⟨i, by simp [hi], hfi⟩

/-- `TwitterUserDAL.upsert` touches only the `twitter_user` table. -/
theorem twitterUserUpsertRow_only (db : DB) (id : Int) (un dn : Str) (lu : Int) :
    (twitterUserUpsertRow db id un dn lu).2.tweets = db.tweets ∧
    (twitterUserUpsertRow db id un dn lu).2.hashtags = db.hashtags ∧
    (twitterUserUpsertRow db id un dn lu).2.topics = db.topics ∧
    (twitterUserUpsertRow db id un dn lu).2.tweetHashtags = db.tweetHashtags ∧
    (twitterUserUpsertRow db id un dn lu).2.tweetTopics = db.tweetTopics ∧
    (twitterUserUpsertRow db id un dn lu).2.nextHashtagId = db.nextHashtagId ∧
    (twitterUserUpsertRow db id un dn lu).2.nextTopicId = db.nextTopicId := by
  unfold twitterUserUpsertRow
  split
  · exact ⟨rfl, rfl, rfl, rfl, rfl, rfl, rfl⟩
  · split
    · exact ⟨rfl, rfl, rfl, rfl, rfl, rfl, rfl⟩
    · exact ⟨rfl, rfl, rfl, rfl, rfl, rfl, rfl⟩

/-- `TweetDAL.upsert` touches only the `tweet` table. -/
theorem tweetRowUpsert_only (db : DB) (tid uid : Int) (content : Str)
    (language : Option Str) (ca : Int) (ss : Option Int) (lc rc pc : Int) :
    (tweetRowUpsert db tid uid content language ca ss lc rc pc).2.twitterUsers = db.twitterUsers ∧
    (tweetRowUpsert db tid uid content language ca ss lc rc pc).2.hashtags = db.hashtags ∧
    (tweetRowUpsert db tid uid content language ca ss lc rc pc).2.topics = db.topics ∧
    (tweetRowUpsert db tid uid content language ca ss lc rc pc).2.tweetHashtags = db.tweetHashtags ∧
    (tweetRowUpsert db tid uid content language ca ss lc rc pc).2.tweetTopics = db.tweetTopics ∧
    (tweetRowUpsert db tid uid content language ca ss lc rc pc).2.nextHashtagId = db.nextHashtagId ∧
    (tweetRowUpsert db tid uid content language ca ss lc rc pc).2.nextTopicId = db.nextTopicId := by
  unfold tweetRowUpsert
  split
  · exact ⟨rfl, rfl, rfl, rfl, rfl, rfl, rfl⟩
  · exact ⟨rfl, rfl, rfl, rfl, rfl, rfl, rfl⟩

/-- After `TweetDAL.upsert` the tweet row with the given id carries the
just-written payload. -/
theorem tweetRowUpsert_find (db : DB) (tid uid : Int) (content : Str)
    (language : Option Str) (ca : Int) (ss : Option Int) (lc rc pc : Int) :
    ∃ r, findTweetById (tweetRowUpsert db tid uid content language ca ss lc rc pc).2 tid
        = some r ∧
      r.content = content ∧ r.language = language ∧ r.created_at = ca ∧
      r.sentiment_score = ss ∧ r.like_count = lc ∧ r.retweet_count = rc ∧
      r.reply_count = pc := by
  unfold tweetRowUpsert findTweetById
  split
  · rename_i hany
    dsimp only
    rw [List.any_eq_true] at hany
    obtain ⟨u, hu, hpu⟩ := hany
    have hfs : (db.tweets.find? (fun r => r.id == tid)).isSome = true :=
      List.find?_isSome.mpr ⟨u, hu, hpu⟩
    obtain ⟨w, hw⟩ := Option.isSome_iff_exists.mp hfs
    rw [find?_map_ite (fun r => r.id == tid)
      (fun r => TweetRow.mk r.id r.user_id content language ca ss lc rc pc)
      (fun a ha => by simpa using ha)]
    rw [hw]
    exact ⟨_, rfl, rfl, rfl, rfl, rfl, rfl, rfl, rfl⟩
  · rename_i hany
    dsimp only
    have hnone : db.tweets.find? (fun r => r.id == tid) = none := by
      rw [List.find?_eq_none]
      intro x hx
      intro hpx
      exact hany (List.any_eq_true.mpr ⟨x, hx, hpx⟩)
    rw [find?_append_of_none hnone]
    exact ⟨⟨tid, uid, content, language, ca, ss, lc, rc, pc⟩,
      List.find?_cons_of_pos _ (by simp), rfl, rfl, rfl, rfl, rfl, rfl, rfl⟩

/-- After `TweetDAL.upsert` the tweet id is present. -/
theorem tweetRowUpsert_mem (db : DB) (tid uid : Int) (content : Str)
    (language : Option Str) (ca : Int) (ss : Option Int) (lc rc pc : Int) :
    tid ∈ (tweetRowUpsert db tid uid content language ca ss lc rc pc).2.tweets.map
      TweetRow.id := by
  obtain ⟨r, hr, -⟩ :=
    tweetRowUpsert_find db tid uid content language ca ss lc rc pc
  have hmem := List.mem_of_find?_eq_some hr
  have hpred := List.find?_some hr
  have : r.id = tid := by simpa using hpred
  rw [List.mem_map]
  exact ⟨r, hmem, this⟩

/-- Link replacement touches only the `tweet_hashtag` table. -/
theorem tweetHashtagReplace_only (db : DB) (tid : Int) (ids : List Int) :
    (tweetHashtagReplace db tid ids).twitterUsers = db.twitterUsers ∧
    (tweetHashtagReplace db tid ids).tweets = db.tweets ∧
    (tweetHashtagReplace db tid ids).hashtags = db.hashtags ∧
    (tweetHashtagReplace db tid ids).topics = db.topics ∧
    (tweetHashtagReplace db tid ids).tweetTopics = db.tweetTopics ∧
    (tweetHashtagReplace db tid ids).nextHashtagId = db.nextHashtagId ∧
    (tweetHashtagReplace db tid ids).nextTopicId = db.nextTopicId := by
  unfold tweetHashtagReplace
  split
  · exact ⟨rfl, rfl, rfl, rfl, rfl, rfl, rfl⟩
  · exact ⟨rfl, rfl, rfl, rfl, rfl, rfl, rfl⟩

/-- Link replacement touches only the `tweet_topic` table. -/
theorem tweetTopicReplace_only (db : DB) (tid : Int) (ids : List Int) :
    (tweetTopicReplace db tid ids).twitterUsers = db.twitterUsers ∧
    (tweetTopicReplace db tid ids).tweets = db.tweets ∧
    (tweetTopicReplace db tid ids).hashtags = db.hashtags ∧
    (tweetTopicReplace db tid ids).topics = db.topics ∧
    (tweetTopicReplace db tid ids).tweetHashtags = db.tweetHashtags ∧
    (tweetTopicReplace db tid ids).nextHashtagId = db.nextHashtagId ∧
    (tweetTopicReplace db tid ids).nextTopicId = db.nextTopicId := by
  unfold tweetTopicReplace
  split
  · exact ⟨rfl, rfl, rfl, rfl, rfl, rfl, rfl⟩
  · exact ⟨rfl, rfl, rfl, rfl, rfl, rfl, rfl⟩

/-- Full behaviour of the hashtag step of the `finally` block: it always
succeeds, leaves every other table alone, only appends hashtag rows,
creates a row for every extracted tag, and — when the tweet row exists —
the tweet's links afterwards are exactly the extracted tags. -/
theorem hashtagPhase_spec (db : DB) (tid : Int) (content : Str)
    (hInv : RegInv db.hashtags db.nextHashtagId) :
    ∃ db3, hashtagPhase db tid content = .ok db3 ∧
      db3.twitterUsers = db.twitterUsers ∧
      db3.tweets = db.tweets ∧
      db3.topics = db.topics ∧
      db3.nextTopicId = db.nextTopicId ∧
      db3.tweetTopics = db.tweetTopics ∧
      RegInv db3.hashtags db3.nextHashtagId ∧
      (∃ ext, db3.hashtags = db.hashtags ++ ext) ∧
      (∀ t ∈ extractHashtags content, ∃ i, (i, t) ∈ db3.hashtags) ∧
      (tid ∈ db.tweets.map TweetRow.id →
        ∀ t : Str,
          (∃ i, (i, t) ∈ db3.hashtags ∧ THLink.mk tid i ∈ db3.tweetHashtags) ↔
          t ∈ extractHashtags content) := by
  have hss : ∀ t ∈ dedupFirst (extractHashtags content), stripSafe true t :=
    fun t ht =>
      stripSafe_of_wordChars
        (wordChar_extractHashtags content t ((mem_dedupFirst _ _).mp ht)) true
  obtain ⟨is, rows', nid', hfold, ⟨ext, hext⟩, hInv', hfa, hnd⟩ :=
    fold_spec true (dedupFirst (extractHashtags content)) db.hashtags
      db.nextHashtagId hInv hss
  have hisnd : is.Nodup := hnd (nodup_dedupFirst _)
  refine ⟨tweetHashtagReplace
      { db with hashtags := rows', nextHashtagId := nid' } tid is, ?_, ?_, ?_,
      ?_, ?_, ?_, ?_, ?_, ?_, ?_⟩
  · unfold hashtagPhase
    rw [hfold]
  · exact (tweetHashtagReplace_only _ _ _).1
  · exact (tweetHashtagReplace_only _ _ _).2.1
  · exact (tweetHashtagReplace_only _ _ _).2.2.2.1
  · exact (tweetHashtagReplace_only _ _ _).2.2.2.2.2.2
  · exact (tweetHashtagReplace_only _ _ _).2.2.2.2.1
  · rw [(tweetHashtagReplace_only _ _ _).2.2.1,
        (tweetHashtagReplace_only _ _ _).2.2.2.2.2.1]
    exact hInv'
  · rw [(tweetHashtagReplace_only _ _ _).2.2.1]
    exact ⟨ext, hext⟩
  · rw [(tweetHashtagReplace_only _ _ _).2.2.1]
    intro t ht
    obtain ⟨i, hi, hfi⟩ := forall2_mem_left hfa t ((mem_dedupFirst _ _).mpr ht)
    exact ⟨i, findText_mem hfi⟩
  · intro htid t
    have hidsmem : ∀ i ∈ is, i ∈ rows'.map Prod.fst := by
      intro i hi
      obtain ⟨u, hu, hfu⟩ := forall2_mem_right hfa i hi
      exact List.mem_map.mpr ⟨(i, u), findText_mem hfu, rfl⟩
    have hcond : (is = [] ∨
        tid ∈ ({ db with hashtags := rows', nextHashtagId := nid' } : DB).tweets.map TweetRow.id)
        ∧ (∀ i ∈ is, i ∈ ({ db with hashtags := rows', nextHashtagId := nid' } : DB).hashtags.map Prod.fst)
        ∧ is.Nodup :=
      ⟨Or.inr htid, hidsmem, hisnd⟩
    unfold tweetHashtagReplace
    rw [if_pos hcond]
    constructor
    · rintro ⟨i, hrow, hlink⟩
      rcases List.mem_append.mp hlink with hold | hnew
      · have := (List.mem_filter.mp hold).2
        simp at this
      · rcases List.mem_map.mp hnew with ⟨i', hi', heq⟩
        have h2 : i' = i := by injection heq
        rw [h2] at hi'
        obtain ⟨u, hu, hfu⟩ := forall2_mem_right hfa i hi'
        have hrow' : (i, u) ∈ rows' := findText_mem hfu
        have : ((i, t) : Int × Str) = (i, u) :=
          List.inj_on_of_nodup_map hInv'.1 hrow hrow' rfl
        have ht : t = u := by simpa using congrArg Prod.snd this
        rw [ht]
        exact (mem_dedupFirst _ _).mp hu
    · intro ht
      obtain ⟨i, hi, hfi⟩ :=
        forall2_mem_left hfa t ((mem_dedupFirst _ _).mpr ht)
      exact ⟨i, findText_mem hfi,
        List.mem_append.mpr (Or.inr (List.mem_map.mpr ⟨i, hi, rfl⟩))⟩

/-- Full behaviour of the topic step of the `finally` block: it always
succeeds, leaves every other table alone, creates a (truncated-title) row
for every supplied topic, and — for a non-empty topic list, when the tweet
row exists — stores, for *every* admissible iteration order of the
topic-id `set`, exactly one link per distinct supplied topic id, with
`sort_order` values 0..n-1 assigned in that (unspecified) order. -/
theorem topicPhaseWith_spec (setIter : List Int → List Int)
    (hIter : setIterOk setIter) (db : DB) (tid : Int)
    (topics : Option (List Str)) (hInv : RegInv db.topics db.nextTopicId) :
    ∃ db4, topicPhaseWith setIter db tid topics = .ok db4 ∧
      db4.twitterUsers = db.twitterUsers ∧
      db4.tweets = db.tweets ∧
      db4.hashtags = db.hashtags ∧
      db4.nextHashtagId = db.nextHashtagId ∧
      db4.tweetHashtags = db.tweetHashtags ∧
      (∀ ts, topics = some ts → ∀ t ∈ ts, ∃ i, (i, pyTrunc 100 t) ∈ db4.topics) ∧
      (∀ ts, topics = some ts → ts ≠ [] →
        tid ∈ db.tweets.map TweetRow.id →
        ∃ iter : List Int, iter.Nodup ∧
          (∀ i : Int, i ∈ iter ↔
            ∃ t ∈ ts, findText db4.topics (pyTrunc 100 t) = some i) ∧
          (∀ k, ∀ hk : k < iter.length,
            TTLink.mk tid (iter.get ⟨k, hk⟩) (Int.ofNat k) ∈ db4.tweetTopics) ∧
          (∀ l ∈ db4.tweetTopics, l.tweet_id = tid →
            ∃ k, ∃ hk : k < iter.length,
              l = TTLink.mk tid (iter.get ⟨k, hk⟩) (Int.ofNat k))) := by
  match topics with
  | none =>
    exact ⟨db, rfl, rfl, rfl, rfl, rfl, rfl, by simp, by simp⟩
  | some ts =>
    by_cases hempty : ts.isEmpty
    · refine ⟨db, ?_, rfl, rfl, rfl, rfl, rfl, ?_, ?_⟩
      · unfold topicPhaseWith
        dsimp only
        rw [if_pos hempty]
      · intro ts' hts' t ht
        injection hts' with h
        subst h
        rw [List.isEmpty_iff] at hempty
        subst hempty
        cases ht
      · intro ts' hts' hne _
        injection hts' with h
        subst h
        rw [List.isEmpty_iff] at hempty
        exact absurd hempty hne
    · have hss : ∀ t ∈ ts.map (pyTrunc 100), stripSafe false t := by
        intro t _ h
        cases h
      obtain ⟨is, rows', nid', hfold, ⟨ext, hext⟩, hInv', hfa, hnd⟩ :=
        fold_spec false (ts.map (pyTrunc 100)) db.topics db.nextTopicId hInv hss
      refine ⟨tweetTopicReplace
          { db with topics := rows', nextTopicId := nid' } tid (setIter is),
          ?_, ?_, ?_, ?_, ?_, ?_, ?_, ?_⟩
      · unfold topicPhaseWith
        dsimp only
        rw [if_neg hempty, hfold]
      · exact (tweetTopicReplace_only _ _ _).1
      · exact (tweetTopicReplace_only _ _ _).2.1
      · exact (tweetTopicReplace_only _ _ _).2.2.1
      · exact (tweetTopicReplace_only _ _ _).2.2.2.2.2.1
      · exact (tweetTopicReplace_only _ _ _).2.2.2.2.1
      · rw [(tweetTopicReplace_only _ _ _).2.2.2.1]
        intro ts' hts' t ht
        injection hts' with h
        subst h
        obtain ⟨i, hi, hfi⟩ :=
          forall2_mem_left hfa (pyTrunc 100 t) (List.mem_map_of_mem _ ht)
        exact ⟨i, findText_mem hfi⟩
      · intro ts' hts' _ htid
        injection hts' with h
        subst h
        have hidsmem : ∀ i ∈ setIter is, i ∈ rows'.map Prod.fst := by
          intro i hi
          obtain ⟨u, hu, hfu⟩ :=
            forall2_mem_right hfa i (((hIter is).2 i).mp hi)
          exact List.mem_map.mpr ⟨(i, u), findText_mem hfu, rfl⟩
        have hcond : (setIter is = [] ∨
            tid ∈ ({ db with topics := rows', nextTopicId := nid' } : DB).tweets.map TweetRow.id)
            ∧ (∀ i ∈ setIter is, i ∈ ({ db with topics := rows', nextTopicId := nid' } : DB).topics.map Prod.fst)
            ∧ (setIter is).Nodup :=
          ⟨Or.inr htid, hidsmem, (hIter is).1⟩
        unfold tweetTopicReplace
        rw [if_pos hcond]
        dsimp only
        refine ⟨setIter is, (hIter is).1, ?_, ?_, ?_⟩
        · intro i
          rw [(hIter is).2 i]
          constructor
          · intro hi
            obtain ⟨t', ht', hft'⟩ := forall2_mem_right hfa i hi
            obtain ⟨t, ht, rfl⟩ := List.mem_map.mp ht'
            exact ⟨t, ht, hft'⟩
          · rintro ⟨t, ht, hft⟩
            obtain ⟨i', hi', hfi'⟩ :=
              forall2_mem_left hfa (pyTrunc 100 t) (List.mem_map_of_mem _ ht)
            rw [hft] at hfi'
            injection hfi' with h
            rw [h]
            exact hi'
        · intro k hk
          apply List.mem_append.mpr
          apply Or.inr
          apply List.mem_map.mpr
          refine ⟨(k, (setIter is).get ⟨k, hk⟩), ?_, rfl⟩
          rw [List.mk_mem_enum_iff_getElem?]
          exact List.getElem?_eq_getElem hk
        · intro l hl hltid
          rcases List.mem_append.mp hl with hold | hnew
          · have hpred := (List.mem_filter.mp hold).2
            rw [hltid] at hpred
            simp at hpred
          · rcases List.mem_map.mp hnew with ⟨p, hp, hpe⟩
            obtain ⟨k, x⟩ := p
            rw [List.mk_mem_enum_iff_getElem?] at hp
            obtain ⟨hk, hget⟩ := List.getElem?_eq_some.mp hp
            refine ⟨k, hk, ?_⟩
            rw [← hpe]
            dsimp only
            congr 1
            rw [List.get_eq_getElem]
            exact hget.symm

/-- Phase 1 never touches the tag or link tables. -/
theorem upsertPhase1_only (db : DB) (fault : Fault) (a : UpsertArgs)
    (c : Str) (l : Option Str) :
    (upsertPhase1 db fault a c l).2.hashtags = db.hashtags ∧
    (upsertPhase1 db fault a c l).2.topics = db.topics ∧
    (upsertPhase1 db fault a c l).2.tweetHashtags = db.tweetHashtags ∧
    (upsertPhase1 db fault a c l).2.tweetTopics = db.tweetTopics ∧
    (upsertPhase1 db fault a c l).2.nextHashtagId = db.nextHashtagId ∧
    (upsertPhase1 db fault a c l).2.nextTopicId = db.nextTopicId := by
  cases fault with
  | nofault =>
    unfold upsertPhase1
    dsimp only
    have h1 := tweetRowUpsert_only
      (twitterUserUpsertRow db a.twitter_user_id a.username a.display_name
        a.created_at).2 a.tweet_id a.twitter_user_id c l a.created_at
      a.sentiment_score a.like_count a.retweet_count a.reply_count
    have h2 := twitterUserUpsertRow_only db a.twitter_user_id a.username
      a.display_name a.created_at
    exact ⟨h1.2.1.trans h2.2.1, h1.2.2.1.trans h2.2.2.1,
      h1.2.2.2.1.trans h2.2.2.2.1, h1.2.2.2.2.1.trans h2.2.2.2.2.1,
      h1.2.2.2.2.2.1.trans h2.2.2.2.2.2.1, h1.2.2.2.2.2.2.trans h2.2.2.2.2.2.2⟩
  | atUserUpsert => exact ⟨rfl, rfl, rfl, rfl, rfl, rfl⟩
  | atTweetUpsert => exact ⟨rfl, rfl, rfl, rfl, rfl, rfl⟩
  | atCommit => exact ⟨rfl, rfl, rfl, rfl, rfl, rfl⟩

/-- On any fault the `try` block rolls back: count 0, store unchanged. -/
theorem upsertPhase1_fault (db : DB) (fault : Fault) (a : UpsertArgs)
    (c : Str) (l : Option Str) (hf : fault ≠ .nofault) :
    upsertPhase1 db fault a c l = (0, db) := by
  cases fault with
  | nofault => exact absurd rfl hf
  | atUserUpsert => rfl
  | atTweetUpsert => rfl
  | atCommit => rfl

/-- On the fault-free path the tweet row exists afterwards. -/
theorem upsertPhase1_tweet_mem (db : DB) (a : UpsertArgs) (c : Str)
    (l : Option Str) :
    a.tweet_id ∈ (upsertPhase1 db .nofault a c l).2.tweets.map TweetRow.id := by
  unfold upsertPhase1
  dsimp only
  exact tweetRowUpsert_mem _ _ _ _ _ _ _ _ _ _

/-- On the fault-free path the tweet row carries the written payload. -/
theorem upsertPhase1_find (db : DB) (a : UpsertArgs) (c : Str)
    (l : Option Str) :
    ∃ r, findTweetById (upsertPhase1 db .nofault a c l).2 a.tweet_id = some r ∧
      r.content = c ∧ r.language = l ∧ r.created_at = a.created_at ∧
      r.sentiment_score = a.sentiment_score ∧ r.like_count = a.like_count ∧
      r.retweet_count = a.retweet_count ∧ r.reply_count = a.reply_count := by
  unfold upsertPhase1
  dsimp only
  exact tweetRowUpsert_find _ _ _ _ _ _ _ _ _ _

/-- `find_by_id` only looks at the `tweet` table. -/
theorem findTweetById_congr {db db' : DB} (h : db'.tweets = db.tweets)
    (tid : Int) : findTweetById db' tid = findTweetById db tid := by
  unfold findTweetById
  rw [h]

/-- First-occurrence order is one admissible set-iteration order. -/
theorem dedupFirst_setIterOk : setIterOk dedupFirst :=
  fun l => ⟨nodup_dedupFirst l, fun i => mem_dedupFirst l i⟩

/-- Master specification of `TweetBLL.upsert`, for every admissible
iteration order of the topic-id `set` and every fault mode: the call
returns `Except.ok` with the `try`-block's affected-row count, the final
`tweet`/`twitter_user` tables are those phase 1 produced, rows exist for
every extracted hashtag and every supplied (truncated) topic title, and —
when the tweet row exists after phase 1 — the hashtag links are exactly
the extracted tags, and (for a non-empty topic list) the topic links are
one per distinct supplied topic id with `sort_order` 0..n-1 assigned in
the set's iteration order. -/
theorem tweetBLLUpsertWith_spec (setIter : List Int → List Int)
    (hIter : setIterOk setIter) (db : DB) (fault : Fault) (a : UpsertArgs)
    (hInv : DBInv db) :
    ∃ db4, tweetBLLUpsertWith setIter db fault a
        = .ok ((upsertPhase1 db fault a (pyTrunc 280 a.content)
                  (langNorm a.language)).1, db4) ∧
      db4.twitterUsers
        = (upsertPhase1 db fault a (pyTrunc 280 a.content)
            (langNorm a.language)).2.twitterUsers ∧
      db4.tweets
        = (upsertPhase1 db fault a (pyTrunc 280 a.content)
            (langNorm a.language)).2.tweets ∧
      (∀ t ∈ extractHashtags (pyTrunc 280 a.content), ∃ i, (i, t) ∈ db4.hashtags) ∧
      (∀ ts, a.topics = some ts → ∀ t ∈ ts, ∃ i, (i, pyTrunc 100 t) ∈ db4.topics) ∧
      (a.tweet_id ∈ (upsertPhase1 db fault a (pyTrunc 280 a.content)
            (langNorm a.language)).2.tweets.map TweetRow.id →
        ∀ t : Str,
          (∃ i, (i, t) ∈ db4.hashtags ∧ THLink.mk a.tweet_id i ∈ db4.tweetHashtags) ↔
          t ∈ extractHashtags (pyTrunc 280 a.content)) ∧
      (∀ ts, a.topics = some ts → ts ≠ [] →
        a.tweet_id ∈ (upsertPhase1 db fault a (pyTrunc 280 a.content)
            (langNorm a.language)).2.tweets.map TweetRow.id →
        ∃ iter : List Int, iter.Nodup ∧
          (∀ i : Int, i ∈ iter ↔
            ∃ t ∈ ts, findText db4.topics (pyTrunc 100 t) = some i) ∧
          (∀ k, ∀ hk : k < iter.length,
            TTLink.mk a.tweet_id (iter.get ⟨k, hk⟩) (Int.ofNat k) ∈ db4.tweetTopics) ∧
          (∀ l ∈ db4.tweetTopics, l.tweet_id = a.tweet_id →
            ∃ k, ∃ hk : k < iter.length,
              l = TTLink.mk a.tweet_id (iter.get ⟨k, hk⟩) (Int.ofNat k))) := by
  have honly := upsertPhase1_only db fault a (pyTrunc 280 a.content)
    (langNorm a.language)
  have hInvH : RegInv (upsertPhase1 db fault a (pyTrunc 280 a.content)
      (langNorm a.language)).2.hashtags
      (upsertPhase1 db fault a (pyTrunc 280 a.content)
      (langNorm a.language)).2.nextHashtagId := by
    rw [honly.1, honly.2.2.2.2.1]
    exact hInv.1
  obtain ⟨db3, hheq, hu3, ht3, htop3, hntid3, htt3, hInv3, ⟨ext3, hext3⟩,
    hrows3, hlinks3⟩ :=
    hashtagPhase_spec (upsertPhase1 db fault a (pyTrunc 280 a.content)
      (langNorm a.language)).2 a.tweet_id (pyTrunc 280 a.content) hInvH
  have hInvT : RegInv db3.topics db3.nextTopicId := by
    rw [htop3, hntid3, honly.2.1, honly.2.2.2.2.2]
    exact hInv.2
  obtain ⟨db4, hteq, hu4, ht4, hh4, hnh4, hth4, hrows4, hlinks4⟩ :=
    topicPhaseWith_spec setIter hIter db3 a.tweet_id a.topics hInvT
  refine ⟨db4, ?_, ?_, ?_, ?_, hrows4, ?_, ?_⟩
  · unfold tweetBLLUpsertWith
    dsimp only
    rw [hheq]
    dsimp only
    rw [hteq]
  · rw [hu4, hu3]
  · rw [ht4, ht3]
  · intro t ht
    obtain ⟨i, hi⟩ := hrows3 t ht
    exact ⟨i, hh4 ▸ hi⟩
  · intro hmem t
    rw [show db4.hashtags = db3.hashtags from hh4,
        show db4.tweetHashtags = db3.tweetHashtags from hth4]
    exact hlinks3 hmem t
  · intro ts hts hne hmem
    exact hlinks4 ts hts hne (ht3 ▸ hmem)

/-! ## Filter composer (TweetBLL.__build_filters, BLL.py 579-607)

SQLAlchemy column expressions hash by object identity, so
`filters = set(); filters.add(...)` never collapses two additions; the
predicate set is modelled as the list of predicates in addition order.
`datetime` values sit on an integer timeline with the two distinguished
endpoints `dtMin` (= `datetime.min`) and `dtMax` (= `datetime.max`). -/

/-- `datetime.min` on the integer timeline. -/
def dtMin : Int := 0

/-- `datetime.max` on the integer timeline (any fixed value above every
representable timestamp; only `dtMin < dtMax` and comparisons matter). -/
def dtMax : Int := 253402300799

/-- `Between` (BLL.py 9-13); the source declares `inclusive: bool = True`
as a field but `__build_filters` never reads it. -/
structure Between where
  low : Int
  high : Int
  inclusive : Bool
deriving DecidableEq, Repr

/-- One predicate of the composed filter set. -/
inductive Filt where
  | userIdEq (v : Int)
  | usernameEq (v : Str)
  | createdAtGe (v : Int)
  | createdAtLe (v : Int)
  | hashtagIn (vs : List Str)
  | sentimentGe (v : Int)
  | sentimentLe (v : Int)
  | languageEq (v : Str)
deriving DecidableEq, Repr

/-- One joined result row, for giving the predicates their meaning
(`TweetDAL.filter`/`count_if` join `tweet` with `twitter_user`, and with
the hashtag link tables when a hashtag criterion is present). -/
structure QRow where
  user_id : Int
  username : Str
  created_at : Int
  sentiment_score : Option Int
  language : Option Str
  tags : List Str
deriving DecidableEq, Repr

/-- SQL meaning of each predicate (comparisons against NULL are not
satisfied, per SQL three-valued logic). -/
def Filt.eval : Filt → QRow → Bool
  | .userIdEq v, q => q.user_id == v
  | .usernameEq v, q => q.username == v
  | .createdAtGe v, q => decide (v ≤ q.created_at)
  | .createdAtLe v, q => decide (q.created_at ≤ v)
  | .hashtagIn vs, q => q.tags.any (fun t => vs.contains t)
  | .sentimentGe v, q =>
    match q.sentiment_score with
    | some s => decide (v ≤ s)
    | none => false
  | .sentimentLe v, q =>
    match q.sentiment_score with
    | some s => decide (s ≤ v)
    | none => false
  | .languageEq v, q =>
    match q.language with
    | some l => l == v
    | none => false

/-- `TweetBLL.__build_filters` (BLL.py 579-607), used by both `filter_by`
and `count_if`.  Guards are Python truthiness tests (`if user_id:` is
false for `None` *and* `0`; strings and lists are false when empty;
a `Between` instance is always true).  The `until` guard compares against
`datetime.min` although `until`'s default is `datetime.max` — translated
exactly as written (BLL.py 594). -/
def buildFilters (user_id : Option Int) (username : Option Str)
    (since : Int) (until_ : Int) (hashtags : Option (List Str))
    (sentiment_score : Option Between) (language : Option Str) : List Filt :=
  (match user_id with
   | some v => if v == 0 then [] else [Filt.userIdEq v]
   | none => [])
  ++ (match username with
      | some s => if s.isEmpty then [] else [Filt.usernameEq s]
      | none => [])
  ++ (if since ≠ dtMin then [Filt.createdAtGe since] else [])
  ++ (if until_ ≠ dtMin then [Filt.createdAtLe until_] else [])
  ++ (match hashtags with
      | some l => if l.isEmpty then [] else [Filt.hashtagIn l]
      | none => [])
  ++ (match sentiment_score with
      | some b => [Filt.sentimentGe b.low, Filt.sentimentLe b.high]
      | none => [])
  ++ (match language with
      | some s => if s.isEmpty then [] else [Filt.languageEq s]
      | none => [])

/-- Is this predicate one of the two produced by the sentiment
criterion? -/
def isSentimentFilt : Filt → Bool
  | .sentimentGe _ => true
  | .sentimentLe _ => true
  | _ => false

/-! ## Generic write operations of `BaseBLL` (BLL.py 57-97) and the DAL
methods they call (DAL.py 62-91)

`StoreFault` says where (if anywhere) the backing store raises during one
call.  The translation keeps the `try/except/finally` semantics exactly:
a `return` inside `finally` replaces the pending return value or
exception, and evaluating a local that was never assigned raises
`UnboundLocalError`. -/

inductive StoreFault where
  | noFault
  | atStmt
  | atCommit
deriving DecidableEq, Repr

/-- `BaseDAL.delete` (DAL.py 62-77): the `except` swallows the store's
error, then `finally: return result.rowcount` reads the never-assigned
`result` and raises `UnboundLocalError`. -/
def dalDelete {α : Type} (rows : List α) (p : α → Bool) (f : StoreFault) :
    Except PyErr (Int × List α) :=
  match f with
  | .atStmt => .error .unboundLocal
  | _ => .ok (((rows.filter p).length : Int), rows.filter (fun r => !(p r)))

/-- `BaseBLL.delete` (BLL.py 57-78).  On a statement fault the DAL raised
`UnboundLocalError` before `res` was assigned; the `except` block runs
(rollback, `return 0`) but `finally: return res` overrides that with a
fresh `UnboundLocalError`.  On a commit fault `res` holds the uncommitted
rowcount and `finally` returns it even though the transaction was rolled
back. -/
def bllDelete {α : Type} (rows : List α) (p : α → Bool) (f : StoreFault) :
    Except PyErr (Int × List α) :=
  match dalDelete rows p f with
  | .error _ => .error .unboundLocal
  | .ok (n, rows') =>
    match f with
    | .atCommit => .ok (n, rows)
    | _ => .ok (n, rows')

/-- `BaseDAL.delete_all` (DAL.py 79-90): on a statement fault the
`except` swallows the error and the function falls off the end,
returning Python `None` (hence the `Option Int`). -/
def dalDeleteAll {α : Type} (rows : List α) (f : StoreFault) :
    Option Int × List α :=
  match f with
  | .atStmt => (none, rows)
  | _ => (some (rows.length : Int), [])

/-- `BaseBLL.delete_all` (BLL.py 80-97): `result` is always assigned (the
DAL returns `None` rather than raising), so `finally: return result`
returns `None` after a statement fault and the uncommitted count after a
commit fault. -/
def bllDeleteAll {α : Type} (rows : List α) (f : StoreFault) :
    Except PyErr (Option Int × List α) :=
  match dalDeleteAll rows f with
  | (res, rows') =>
    match f with
    | .atCommit => .ok (res, rows)
    | _ => .ok (res, rows')

/-- The update pattern shared by `UserBLL.update` (BLL.py 160-182) and
`ScraperTaskBLL.update` (BLL.py 391-421): the `except` assigns
`affected_row_count = 0` and `finally` returns that same local, so a
fault at the statement or at commit yields 0 without raising. -/
def bllUpdate {α : Type} (rows : List α) (p : α → Bool) (upd : α → α)
    (f : StoreFault) : Except PyErr (Int × List α) :=
  match f with
  | .noFault =>
    .ok (((rows.filter p).length : Int),
         rows.map (fun r => if p r then upd r else r))
  | _ => .ok (0, rows)

/-- `TwitterUserBLL.upsert` (BLL.py 549-573): same `except`/`finally`
shape as the update pattern around `TwitterUserDAL.upsert`. -/
def bllUserUpsert (db : DB) (id : Int) (un dn : Str) (lu : Int)
    (f : StoreFault) : Except PyErr (Int × DB) :=
  match f with
  | .noFault => .ok (twitterUserUpsertRow db id un dn lu)
  | _ => .ok (0, db)

/-- The empty store (auto-increment counters start at 1). -/
def dbEmpty : DB := ⟨[], [], [], [], [], [], 1, 1⟩

theorem regAfterInterf_keeps (interf : Option Str) (s : Reg) :
    (regAfterInterf interf s).nextSession = s.nextSession ∧
    (regAfterInterf interf s).closed = s.closed := by
  unfold regAfterInterf
  match interf with
  | none => exact ⟨rfl, rfl⟩
  | some u =>
    dsimp only
    split
    · exact ⟨rfl, rfl⟩
    · exact ⟨rfl, rfl⟩

theorem regAfterInterf_some_not_mem {t : Str} {s : Reg}
    (h : t ∉ regTexts s.rows) :
    regAfterInterf (some t) s
      = { s with rows := s.rows ++ [(s.nextId, t)], nextId := s.nextId + 1 } := by
  unfold regAfterInterf
  dsimp only
  rw [if_neg h]

/-! ## Claims -/

/-- C2: the claim says every write operation (update, delete, delete_all,
upsert) returns an affected-row count of 0 on a store failure and does not
raise.  The code contradicts this for `delete` and `delete_all`: the
`return` inside `finally` masks the `except` block's `return 0`.  This
theorem evaluates the translated operations at the failing inputs:
`delete` raises `UnboundLocalError` when the DELETE statement fails and
returns the uncommitted (rolled-back) count 1 when the commit fails;
`delete_all` returns Python `None` on a statement failure and the
uncommitted count on a commit failure; `update` and the author `upsert` do
return 0 as claimed. -/
theorem c2_write_failure_behaviour :
    bllDelete [(1 : Int)] (fun r => r == 1) .atStmt = .error .unboundLocal
    ∧ bllDelete [(1 : Int)] (fun r => r == 1) .atCommit = .ok (1, [1])
    ∧ bllDeleteAll [(1 : Int)] .atStmt = .ok (none, [1])
    ∧ bllDeleteAll [(1 : Int)] .atCommit = .ok (some 1, [1])
    ∧ bllUpdate [(1 : Int)] (fun r => r == 1) (fun _ => 2) .atStmt = .ok (0, [1])
    ∧ bllUpdate [(1 : Int)] (fun r => r == 1) (fun _ => 2) .atCommit = .ok (0, [1])
    ∧ bllUserUpsert dbEmpty 1 [] [] 0 .atStmt = .ok (0, dbEmpty)
    ∧ bllUserUpsert dbEmpty 1 [] [] 0 .atCommit = .ok (0, dbEmpty) :=
  ⟨rfl, rfl, rfl, rfl, rfl, rfl, rfl, rfl⟩

/-- C5: the claim says that with `since` and `until` left at their
defaults (`datetime.min` / `datetime.max`) no `created_at` bound predicate
is present and no criterion degenerates into an always-true filter.  The
code tests `until != datetime.min` although `until`'s default is
`datetime.max` (BLL.py 594), so the all-defaults call still produces the
(always-true) predicate `Tweet.created_at <= datetime.max`; passing
`until = datetime.min` is what actually suppresses it. -/
theorem c5_default_until_predicate :
    buildFilters none none dtMin dtMax none none none = [Filt.createdAtLe dtMax]
    ∧ buildFilters none none dtMin dtMin none none none = []
    ∧ dtMin ≠ dtMax :=
  ⟨rfl, rfl, by decide⟩

/-- C10: the `inclusive` flag of `Between` has no effect: `__build_filters`
produces the same predicate list for `inclusive=True` and
`inclusive=False`, the sentiment-derived predicates are exactly
`sentiment_score >= low` and `sentiment_score <= high`, and both evaluate
inclusively (`decide (low ≤ v)` / `decide (v ≤ high)`). -/
theorem c10_between_inclusive_irrelevant
    (u : Option Int) (un : Option Str) (s t : Int) (h : Option (List Str))
    (lang : Option Str) (lo hi : Int) (b₁ b₂ : Bool) :
    buildFilters u un s t h (some ⟨lo, hi, b₁⟩) lang
      = buildFilters u un s t h (some ⟨lo, hi, b₂⟩) lang
    ∧ (buildFilters u un s t h (some ⟨lo, hi, b₁⟩) lang).filter isSentimentFilt
        = [Filt.sentimentGe lo, Filt.sentimentLe hi]
    ∧ (∀ (q : QRow) (v : Int),
        Filt.eval (Filt.sentimentGe lo) { q with sentiment_score := some v }
          = decide (lo ≤ v)
        ∧ Filt.eval (Filt.sentimentLe hi) { q with sentiment_score := some v }
          = decide (v ≤ hi)) := by
  refine ⟨rfl, ?_, fun q v => ⟨rfl, rfl⟩⟩
  unfold buildFilters
  rcases u with _ | v₁ <;> rcases un with _ | s₁ <;> rcases h with _ | l₁ <;>
    rcases lang with _ | s₂ <;>
    simp [isSentimentFilt, List.filter_append, apply_ite (List.filter isSentimentFilt)]

/-- C8: author upsert is last-writer-wins by timestamp.  If a row with the
incoming id is stored, then after `TwitterUserDAL.upsert` the row is fully
overwritten (username, display_name, last_updated) when the incoming
timestamp is strictly newer than the stored `last_updated`, and untouched
when it is earlier or equal. -/
theorem c8_author_upsert_last_writer_wins (db : DB) (id : Int) (un dn : Str)
    (lu : Int) (u : TwitterUserRow) (hfind : findUserById db id = some u) :
    findUserById (twitterUserUpsertRow db id un dn lu).2 id =
      some (if u.last_updated < lu then ⟨u.id, un, dn, lu⟩ else u) := by
  unfold findUserById at hfind ⊢
  have hmem := List.mem_of_find?_eq_some hfind
  have hpred := List.find?_some hfind
  unfold twitterUserUpsertRow
  rw [if_pos (List.any_eq_true.mpr ⟨u, hmem, hpred⟩)]
  dsimp only
  rw [find?_map_ite (fun r => r.id == id)
    (fun r => if r.last_updated < lu then TwitterUserRow.mk r.id un dn lu else r)
    (fun a ha => by
      by_cases hlt : a.last_updated < lu
      · simpa [hlt] using ha
      · simpa [hlt] using ha)]
  rw [hfind]
  rfl

/-- Witness for C8 at a concrete store: the stored row (timestamp 5) is
overwritten by an upsert carrying timestamp 6. -/
theorem c8_witness :
    findUserById (twitterUserUpsertRow
        ⟨[⟨1, ['a'], ['b'], 5⟩], [], [], [], [], [], 1, 1⟩
        1 ['c'] ['d'] 6).2 1
      = some (if (5 : Int) < 6 then ⟨1, ['c'], ['d'], 6⟩ else ⟨1, ['a'], ['b'], 5⟩) :=
  c8_author_upsert_last_writer_wins
    ⟨[⟨1, ['a'], ['b'], 5⟩], [], [], [], [], [], 1, 1⟩
    1 ['c'] ['d'] 6 ⟨1, ['a'], ['b'], 5⟩ rfl

/-- C3 counterexample: on the tag registry's duplicate-insert retry path a
session is acquired but never released.  Starting from an empty table with
session counter 0, a run of `insert_if_not_exists('a')` whose insert hits
the unique constraint (a concurrent writer committed `'a'` in between)
creates sessions 0 and 1 but closes only session 1 — session 0, rebound
away by the `except` block, is leaked, refuting "every session acquired is
released on every exit path". -/
theorem c3_counterexample :
    insertIfNotExists true (some ['a']) ⟨[], 1, 0, []⟩ ['a']
      = (.ok 1, ⟨[(1, ['a'])], 2, 2, [1]⟩)
    ∧ (0 : Nat) ∉ ([1] : List Nat) :=
  ⟨rfl, by decide⟩

/-- C3 (amended): in the tag registry's `insert_if_not_exists`, every
acquired session is closed before return on the found and plain-insert
paths (one session created, that session closed), but on the
duplicate-insert retry path the first session — the one whose insert
failed — is never closed: two sessions are created and only the second
appears in the closed list. -/
theorem c3_session_release (b : Bool) (interf : Option Str) (s : Reg)
    (t : Str) (hc : s.closed = []) :
    ∃ r s', insertIfNotExists b interf s t = (r, s') ∧
      ((s'.nextSession = s.nextSession + 1 ∧ s'.closed = [s.nextSession]) ∨
       (s'.nextSession = s.nextSession + 2 ∧ s'.closed = [s.nextSession + 1])) := by
  have hks : (regAfterInterf interf { s with nextSession := s.nextSession + 1 }).nextSession
      = s.nextSession + 1 := (regAfterInterf_keeps _ _).1
  have hkc : (regAfterInterf interf { s with nextSession := s.nextSession + 1 }).closed
      = [] := by
    rw [(regAfterInterf_keeps _ _).2]
    exact hc
  cases hf : findText s.rows t with
  | some i =>
    refine ⟨.ok i, closeS s.nextSession { s with nextSession := s.nextSession + 1 },
      ?_, Or.inl ⟨rfl, ?_⟩⟩
    · simp [insertIfNotExists, hf]
    · simp [closeS, hc]
  | none =>
    by_cases hdup : (if b then stripHash t else t)
        ∈ regTexts (regAfterInterf interf { s with nextSession := s.nextSession + 1 }).rows
    · cases hf2 : findText
          (regAfterInterf interf { s with nextSession := s.nextSession + 1 }).rows t with
      | some j =>
        refine ⟨.ok j,
          closeS (regAfterInterf interf { s with nextSession := s.nextSession + 1 }).nextSession
            { regAfterInterf interf { s with nextSession := s.nextSession + 1 } with
              nextSession := (regAfterInterf interf { s with nextSession := s.nextSession + 1 }).nextSession + 1 },
          ?_, Or.inr ⟨?_, ?_⟩⟩
        · simp only [insertIfNotExists, hf]
          rw [if_pos hdup, hf2]
        · simp [closeS, hks]
        · simp [closeS, hks, hkc]
      | none =>
        refine ⟨.error .attrError,
          closeS (regAfterInterf interf { s with nextSession := s.nextSession + 1 }).nextSession
            { regAfterInterf interf { s with nextSession := s.nextSession + 1 } with
              nextSession := (regAfterInterf interf { s with nextSession := s.nextSession + 1 }).nextSession + 1 },
          ?_, Or.inr ⟨?_, ?_⟩⟩
        · simp only [insertIfNotExists, hf]
          rw [if_pos hdup, hf2]
        · simp [closeS, hks]
        · simp [closeS, hks, hkc]
    · refine ⟨.ok (regAfterInterf interf { s with nextSession := s.nextSession + 1 }).nextId,
        closeS s.nextSession
          { regAfterInterf interf { s with nextSession := s.nextSession + 1 } with
            rows := (regAfterInterf interf { s with nextSession := s.nextSession + 1 }).rows
              ++ [((regAfterInterf interf { s with nextSession := s.nextSession + 1 }).nextId,
                   if b then stripHash t else t)],
            nextId := (regAfterInterf interf { s with nextSession := s.nextSession + 1 }).nextId + 1 },
        ?_, Or.inl ⟨?_, ?_⟩⟩
      · simp only [insertIfNotExists, hf]
        rw [if_neg hdup]
      · simp [closeS, hks]
      · simp [closeS, hks, hkc]

/-- Witness for C3's amended statement at a concrete state (the
interference-free insert path: one session, closed). -/
theorem c3_witness :
    ∃ r s', insertIfNotExists true none ⟨[], 1, 0, []⟩ ['a'] = (r, s') ∧
      ((s'.nextSession = 0 + 1 ∧ s'.closed = [0]) ∨
       (s'.nextSession = 0 + 2 ∧ s'.closed = [0 + 1])) :=
  c3_session_release true none ⟨[], 1, 0, []⟩ ['a'] rfl

/-- C6: tag-registry get-or-create is idempotent.  Under the schema
invariant, for a text the Hashtag DAL's `#`-stripping leaves unchanged
(always true for the Topic variant and for regex-extracted tags):
(a) when the lookup finds the text, the id is returned and no write
occurs; (b) two consecutive calls return the same id, the second performs
no write, and exactly one row with the text exists afterwards; (c) when
the lookup misses and a concurrent writer commits the same text before
our insert (the duplicate-key retry path), the call returns the
now-existing row's id and still exactly one row with the text exists. -/
theorem c6_get_or_create_idempotent (b : Bool) (s : Reg) (t : Str)
    (hInv : RegInv s.rows s.nextId) (hs : stripSafe b t) :
    (∀ i, findText s.rows t = some i →
      (insertIfNotExists b none s t).1 = .ok i ∧
      (insertIfNotExists b none s t).2.rows = s.rows)
    ∧ (∃ i, (insertIfNotExists b none s t).1 = .ok i ∧
        (insertIfNotExists b none (insertIfNotExists b none s t).2 t).1 = .ok i ∧
        (insertIfNotExists b none (insertIfNotExists b none s t).2 t).2.rows
          = (insertIfNotExists b none s t).2.rows ∧
        countText (insertIfNotExists b none
          (insertIfNotExists b none s t).2 t).2.rows t = 1)
    ∧ (findText s.rows t = none →
        (insertIfNotExists b (some t) s t).1 = .ok s.nextId ∧
        countText (insertIfNotExists b (some t) s t).2.rows t = 1) := by
  obtain ⟨i₁, s₁, heq₁, hnid₁, hcase₁⟩ := gc_spec b s t hs
  have hInv₁ : RegInv s₁.rows s₁.nextId := gc_inv hInv hs heq₁
  have hfind₁ : findText s₁.rows t = some i₁ := by
    rcases hcase₁ with ⟨hf, hrows⟩ | ⟨hf, rfl, hrows⟩
    · rw [hrows]; exact hf
    · rw [hrows]; exact findText_append_none hf
  refine ⟨?_, ?_, ?_⟩
  · intro i hf
    rcases hcase₁ with ⟨hf', hrows⟩ | ⟨hf', _, _⟩
    · rw [hf] at hf'
      injection hf' with h
      rw [heq₁, ← h]
      exact ⟨rfl, hrows⟩
    · rw [hf] at hf'
      cases hf'
  · obtain ⟨i₂, s₂, heq₂, hnid₂, hcase₂⟩ := gc_spec b s₁ t hs
    have h₂ : i₂ = i₁ ∧ s₂.rows = s₁.rows := by
      rcases hcase₂ with ⟨hf, hrows⟩ | ⟨hf, _, _⟩
      · rw [hfind₁] at hf
        injection hf with h
        exact ⟨h.symm, hrows⟩
      · rw [hfind₁] at hf
        cases hf
    have hcount : countText s₁.rows t = 1 := by
      have hle := countText_le_one (t := t) hInv₁.2.1
      have hpos := countText_pos hfind₁
      omega
    refine ⟨i₁, by rw [heq₁], ?_, ?_, ?_⟩
    · rw [heq₁]
      dsimp only
      rw [heq₂, h₂.1]
    · rw [heq₁]
      dsimp only
      rw [heq₂]
      exact h₂.2
    · rw [heq₁]
      dsimp only
      rw [heq₂]
      dsimp only
      rw [h₂.2]
      exact hcount
  · intro hf
    have hnm : t ∉ regTexts s.rows := findText_none_iff_not_memText.mp hf
    have hv : (if b then stripHash t else t) = t := by
      cases b with
      | true => simpa using hs rfl
      | false => rfl
    have hint : regAfterInterf (some t) { s with nextSession := s.nextSession + 1 }
        = { s with rows := s.rows ++ [(s.nextId, t)], nextId := s.nextId + 1,
                   nextSession := s.nextSession + 1 } :=
      regAfterInterf_some_not_mem hnm
    have hmem : t ∈ regTexts (s.rows ++ [(s.nextId, t)]) := by
      unfold regTexts
      simp
    have hfind : findText (s.rows ++ [(s.nextId, t)]) t = some s.nextId :=
      findText_append_none hf
    constructor
    · simp only [insertIfNotExists, hf, hint, hv]
      rw [if_pos hmem, hfind]
    · simp only [insertIfNotExists, hf, hint, hv]
      rw [if_pos hmem, hfind]
      dsimp only [closeS]
      rw [countText_append]
      rw [countText_eq_zero hf]
      simp [countText]

/-- Witness for C6 at a concrete state: the Topic variant starting from an
empty table with text `'a'`. -/
theorem c6_witness :
    (∀ i, findText ([] : List (Int × Str)) ['a'] = some i →
      (insertIfNotExists false none ⟨[], 1, 0, []⟩ ['a']).1 = .ok i ∧
      (insertIfNotExists false none ⟨[], 1, 0, []⟩ ['a']).2.rows = [])
    ∧ (∃ i, (insertIfNotExists false none ⟨[], 1, 0, []⟩ ['a']).1 = .ok i ∧
        (insertIfNotExists false none
          (insertIfNotExists false none ⟨[], 1, 0, []⟩ ['a']).2 ['a']).1 = .ok i ∧
        (insertIfNotExists false none
          (insertIfNotExists false none ⟨[], 1, 0, []⟩ ['a']).2 ['a']).2.rows
          = (insertIfNotExists false none ⟨[], 1, 0, []⟩ ['a']).2.rows ∧
        countText (insertIfNotExists false none
          (insertIfNotExists false none ⟨[], 1, 0, []⟩ ['a']).2 ['a']).2.rows ['a'] = 1)
    ∧ (findText ([] : List (Int × Str)) ['a'] = none →
        (insertIfNotExists false (some ['a']) ⟨[], 1, 0, []⟩ ['a']).1 = .ok 1 ∧
        countText (insertIfNotExists false (some ['a'])
          ⟨[], 1, 0, []⟩ ['a']).2.rows ['a'] = 1) :=
  c6_get_or_create_idempotent false ⟨[], 1, 0, []⟩ ['a'] (by decide) (by decide)

/-- C1 counterexample: the claim says a failure during the author/tweet
upsert aborts the whole operation — rollback, return 0, and *none of the
later steps performed*.  Rollback and the 0 return do happen, but the
later steps sit in the `finally` block and still run: with a store fault
at the tweet upsert and text `"#a"`, the hashtag row `a` is created
(the table goes from empty to `[(1, 'a')]`) even though the tweet row was
rolled back. -/
theorem c1_counterexample :
    tweetBLLUpsert dbEmpty .atTweetUpsert
        ⟨1, 7, ['u'], ['d'], ['#', 'a'], none, 3, none, 0, 0, 0, none⟩
      = .ok (0, ⟨[], [], [(1, ['a'])], [], [], [], 2, 1⟩)
    ∧ dbEmpty.hashtags = [] ∧ ([(1, ['a'])] : List (Int × Str)) ≠ [] :=
  ⟨by decide, rfl, by decide⟩

/-- C1 (amended): if the author upsert, the tweet upsert or the commit
fails, the transaction is rolled back (the `tweet` and `twitter_user`
tables are unchanged) and the call returns 0 — but the later steps still
execute in the `finally` block: hashtag rows exist for every tag extracted
from the (truncated) text, and topic rows exist for every supplied
(truncated) topic title. -/
theorem c1_fault_rolls_back_but_tag_steps_run (db : DB) (fault : Fault)
    (a : UpsertArgs) (hInv : DBInv db) (hf : fault ≠ .nofault) :
    ∃ db4, tweetBLLUpsert db fault a = .ok (0, db4) ∧
      db4.tweets = db.tweets ∧
      db4.twitterUsers = db.twitterUsers ∧
      (∀ t ∈ extractHashtags (pyTrunc 280 a.content), ∃ i, (i, t) ∈ db4.hashtags) ∧
      (∀ ts, a.topics = some ts → ∀ t ∈ ts, ∃ i, (i, pyTrunc 100 t) ∈ db4.topics) := by
  obtain ⟨db4, heq, hu, ht, hrows, htop, -, -⟩ :=
    tweetBLLUpsertWith_spec dedupFirst dedupFirst_setIterOk db fault a hInv
  rw [upsertPhase1_fault db fault a _ _ hf] at heq hu ht
  exact ⟨db4, heq, ht, hu, hrows, htop⟩

/-- Witness for C1's amended statement at a concrete input (fault at the
tweet upsert, text `"#a"`, one topic). -/
theorem c1_witness :
    ∃ db4, tweetBLLUpsert dbEmpty .atTweetUpsert
        ⟨1, 7, ['u'], ['d'], ['#', 'a'], none, 3, none, 0, 0, 0, some [['x']]⟩
        = .ok (0, db4) ∧
      db4.tweets = dbEmpty.tweets ∧
      db4.twitterUsers = dbEmpty.twitterUsers ∧
      (∀ t ∈ extractHashtags (pyTrunc 280 ['#', 'a']), ∃ i, (i, t) ∈ db4.hashtags) ∧
      (∀ ts, (some [['x']] : Option (List Str)) = some ts →
        ∀ t ∈ ts, ∃ i, (i, pyTrunc 100 t) ∈ db4.topics) :=
  c1_fault_rolls_back_but_tag_steps_run dbEmpty .atTweetUpsert
    ⟨1, 7, ['u'], ['d'], ['#', 'a'], none, 3, none, 0, 0, 0, some [['x']]⟩
    (by decide) (by decide)

/-- C7: after every fault-free ingestion upsert, the stored text is the
truncated input and the content's hashtag links are exactly the set of
hashtags extracted from that stored text — a full replace of whatever
links existed before, for any prior store satisfying the schema
invariant. -/
theorem c7_hashtag_links_exactly_extracted (db : DB) (a : UpsertArgs)
    (hInv : DBInv db) :
    ∃ n db4 r, tweetBLLUpsert db .nofault a = .ok (n, db4) ∧
      findTweetById db4 a.tweet_id = some r ∧
      r.content = pyTrunc 280 a.content ∧
      (∀ t : Str,
        (∃ i, (i, t) ∈ db4.hashtags ∧ THLink.mk a.tweet_id i ∈ db4.tweetHashtags) ↔
        t ∈ extractHashtags r.content) := by
  obtain ⟨db4, heq, -, ht, -, -, hlinks, -⟩ :=
    tweetBLLUpsertWith_spec dedupFirst dedupFirst_setIterOk db .nofault a hInv
  obtain ⟨r, hr, hrc, -, -, -, -, -, -⟩ :=
    upsertPhase1_find db a (pyTrunc 280 a.content) (langNorm a.language)
  refine ⟨_, db4, r, heq, ?_, hrc, ?_⟩
  · rw [findTweetById_congr ht]
    exact hr
  · rw [hrc]
    exact hlinks (upsertPhase1_tweet_mem db a _ _)

/-- Witness for C7 at a concrete store that already links tweet 1 to
hashtag `b`: re-upserting tweet 1 with text `"#a"` leaves the links as
exactly `{a}` (full replace, not union). -/
theorem c7_witness :
    ∃ n db4 r, tweetBLLUpsert
        ⟨[⟨7, ['u'], ['d'], 3⟩], [⟨1, 7, ['o'], none, 3, none, 0, 0, 0⟩],
         [(1, ['b'])], [], [⟨1, 1⟩], [], 2, 1⟩ .nofault
        ⟨1, 7, ['u'], ['d'], ['#', 'a'], none, 4, none, 0, 0, 0, none⟩
        = .ok (n, db4) ∧
      findTweetById db4 1 = some r ∧
      r.content = pyTrunc 280 ['#', 'a'] ∧
      (∀ t : Str,
        (∃ i, (i, t) ∈ db4.hashtags ∧ THLink.mk 1 i ∈ db4.tweetHashtags) ↔
        t ∈ extractHashtags r.content) :=
  c7_hashtag_links_exactly_extracted
    ⟨[⟨7, ['u'], ['d'], 3⟩], [⟨1, 7, ['o'], none, 3, none, 0, 0, 0⟩],
     [(1, ['b'])], [], [⟨1, 1⟩], [], 2, 1⟩
    ⟨1, 7, ['u'], ['d'], ['#', 'a'], none, 4, none, 0, 0, 0, none⟩
    (by decide)

/-- C9: ingestion truncates rather than rejects.  For text longer than 280
units the stored content is the first 280 units of the input (length
exactly 280), and a language code longer than 5 units is stored as its
first 5 units. -/
theorem c9_normalize_truncates (db : DB) (a : UpsertArgs) (hInv : DBInv db)
    (hlen : a.content.length > 280) :
    ∃ n db4 r, tweetBLLUpsert db .nofault a = .ok (n, db4) ∧
      findTweetById db4 a.tweet_id = some r ∧
      r.content = a.content.take 280 ∧
      r.content.length = 280 ∧
      (∀ l, a.language = some l → l.length > 5 → r.language = some (l.take 5)) := by
  obtain ⟨db4, heq, -, ht, -, -, -, -⟩ :=
    tweetBLLUpsertWith_spec dedupFirst dedupFirst_setIterOk db .nofault a hInv
  obtain ⟨r, hr, hrc, hrl, -, -, -, -, -⟩ :=
    upsertPhase1_find db a (pyTrunc 280 a.content) (langNorm a.language)
  have hrc' : r.content = a.content.take 280 := by
    rw [hrc]
    unfold pyTrunc
    rw [if_pos hlen]
  refine ⟨_, db4, r, heq, ?_, hrc', ?_, ?_⟩
  · rw [findTweetById_congr ht]
    exact hr
  · rw [hrc', List.length_take]
    omega
  · intro l hl hllen
    rw [hrl]
    unfold langNorm
    rw [hl]
    dsimp only
    unfold pyTrunc
    rw [if_pos hllen]

/-- Witness for C9 at a concrete input: 281 copies of `a` as text and a
6-unit language code. -/
theorem c9_witness :
    ∃ n db4 r, tweetBLLUpsert dbEmpty .nofault
        ⟨1, 7, ['u'], ['d'], List.replicate 281 'a',
         some (List.replicate 6 'b'), 3, none, 0, 0, 0, none⟩
        = .ok (n, db4) ∧
      findTweetById db4 1 = some r ∧
      r.content = (List.replicate 281 'a').take 280 ∧
      r.content.length = 280 ∧
      (∀ l, (some (List.replicate 6 'b') : Option Str) = some l →
        l.length > 5 → r.language = some (l.take 5)) :=
  c9_normalize_truncates dbEmpty
    ⟨1, 7, ['u'], ['d'], List.replicate 281 'a',
     some (List.replicate 6 'b'), 3, none, 0, 0, 0, none⟩
    (by decide) (by rw [List.length_replicate]; omega)

/-- C4 counterexample: the claim says the link for the i-th supplied topic
carries `order_index` i.  Topic ids are collected in a Python `set`, so
duplicate topics collapse: upserting with topic list `['a', 'a']` (length
2) stores exactly one link row, with `sort_order` 0 — no link carries
`order_index` 1 for the second supplied topic. -/
theorem c4_counterexample :
    tweetBLLUpsert dbEmpty .nofault
        ⟨1, 7, ['u'], ['d'], [], none, 3, none, 0, 0, 0, some [['a'], ['a']]⟩
      = .ok (1, ⟨[⟨7, ['u'], ['d'], 3⟩], [⟨1, 7, [], none, 3, none, 0, 0, 0⟩],
                 [], [(1, ['a'])], [], [⟨1, 1, 0⟩], 1, 2⟩)
    ∧ ([['a'], ['a']] : List Str).length = 2
    ∧ ∀ l ∈ [TTLink.mk 1 1 0], l.sort_order ≠ 1 :=
  ⟨by decide, rfl, by decide⟩

/-- C4 (amended): for every admissible iteration order of the Python
`set` holding the topic ids (CPython specifies only that a set iterates
each element exactly once, not in which order — `int` sets follow hash
slots, not insertion), a fault-free upsert with a non-empty topic list
stores exactly one content-topic link per *distinct* supplied topic id:
there is an enumeration `iter` of those ids — the set's iteration order —
such that the tweet's link rows are exactly `(tweet, iter[k], k)` for
`k < n`, carrying `order_index` values 0..n-1.  The caller's input order
is not preserved in general: duplicate titles collapse (see the
counterexample) and the iteration order need not follow input
positions. -/
theorem c4_topic_links_per_distinct_id (setIter : List Int → List Int)
    (hIter : setIterOk setIter) (db : DB) (a : UpsertArgs) (ts : List Str)
    (hInv : DBInv db) (hts : a.topics = some ts) (hne : ts ≠ []) :
    ∃ (n : Int) (db4 : DB) (iter : List Int),
      tweetBLLUpsertWith setIter db .nofault a = .ok (n, db4) ∧
      iter.Nodup ∧
      (∀ i : Int, i ∈ iter ↔
        ∃ t ∈ ts, findText db4.topics (pyTrunc 100 t) = some i) ∧
      (∀ t ∈ ts, ∃ i, (i, pyTrunc 100 t) ∈ db4.topics) ∧
      (∀ k, ∀ hk : k < iter.length,
        TTLink.mk a.tweet_id (iter.get ⟨k, hk⟩) (Int.ofNat k) ∈ db4.tweetTopics) ∧
      (∀ l ∈ db4.tweetTopics, l.tweet_id = a.tweet_id →
        ∃ k, ∃ hk : k < iter.length,
          l = TTLink.mk a.tweet_id (iter.get ⟨k, hk⟩) (Int.ofNat k)) := by
  obtain ⟨db4, heq, -, -, -, htop, -, hord⟩ :=
    tweetBLLUpsertWith_spec setIter hIter db .nofault a hInv
  obtain ⟨iter, hnd, hiff, hfwd, hbwd⟩ :=
    hord ts hts hne (upsertPhase1_tweet_mem db a _ _)
  exact ⟨_, db4, iter, heq, hnd, hiff, htop ts hts, hfwd, hbwd⟩

/-- Witness for C4's amended statement at a concrete input (duplicate
topics, first-occurrence order as the admissible iteration order). -/
theorem c4_witness :
    ∃ (n : Int) (db4 : DB) (iter : List Int),
      tweetBLLUpsertWith dedupFirst dbEmpty .nofault
        ⟨1, 7, ['u'], ['d'], [], none, 3, none, 0, 0, 0, some [['a'], ['a']]⟩
        = .ok (n, db4) ∧
      iter.Nodup ∧
      (∀ i : Int, i ∈ iter ↔
        ∃ t ∈ ([['a'], ['a']] : List Str),
          findText db4.topics (pyTrunc 100 t) = some i) ∧
      (∀ t ∈ ([['a'], ['a']] : List Str), ∃ i, (i, pyTrunc 100 t) ∈ db4.topics) ∧
      (∀ k, ∀ hk : k < iter.length,
        TTLink.mk 1 (iter.get ⟨k, hk⟩) (Int.ofNat k) ∈ db4.tweetTopics) ∧
      (∀ l ∈ db4.tweetTopics, l.tweet_id = 1 →
        ∃ k, ∃ hk : k < iter.length,
          l = TTLink.mk 1 (iter.get ⟨k, hk⟩) (Int.ofNat k)) :=
  c4_topic_links_per_distinct_id dedupFirst dedupFirst_setIterOk dbEmpty
    ⟨1, 7, ['u'], ['d'], [], none, 3, none, 0, 0, 0, some [['a'], ['a']]⟩
    [['a'], ['a']] (by decide) rfl (by decide)

end TweetStore
